import Mathlib

/-!
Shallow embedding of `hack/tools/ownership_tree.py`.

Python dictionaries are modelled as insertion-ordered association lists
(`Dict α`): lookup returns the first binding, assignment overwrites in
place (keeping the original position) or appends a fresh binding at the
end, exactly as CPython dicts behave.  The external `kubectl` fetches
are modelled as explicit inputs: the collection loop receives a list of
raw items, and `extract_resource_summary` (a fresh fetch per resource)
is an oracle parameter.
-/

namespace OwnershipTree

/-- An owner reference triple `(kind, name, uid)` as collected from
`metadata.ownerReferences` (line 128 of the script). -/
structure OwnerRef where
  kind : String
  name : String
  uid : String
deriving Repr, DecidableEq

/-- One entry of `uid_to_resource` (lines 133-139): kind, name, namespace,
uid, owner triples, and the optional event message (line 142). -/
structure Resource where
  kind : String
  name : String
  ns : String
  uid : String
  owners : List OwnerRef
  message : Option String := none
deriving Repr, DecidableEq

/-- A raw item as returned by the external fetch, before the collection
loop normalizes it into the catalog. -/
structure RawItem where
  kind : String
  name : String
  uid : String
  owners : List OwnerRef
  message : Option String := none
deriving Repr, DecidableEq

/-- Insertion-ordered string-keyed dictionary (CPython dict model). -/
abbrev Dict (α : Type) := List (String × α)

/-- `d[k]` lookup: first binding wins (keys are unique in built dicts). -/
def dictGet {α : Type} : Dict α → String → Option α
  | [], _ => none
  | (k', v) :: rest, k => if k' = k then some v else dictGet rest k

/-- `d[k] = v`: overwrite in place, else append a fresh binding at the end. -/
def dictSet {α : Type} : Dict α → String → α → Dict α
  | [], k, v => [(k, v)]
  | (k', v') :: rest, k, v =>
    if k' = k then (k, v) :: rest else (k', v') :: dictSet rest k v

/-- `defaultdict(list)` append: `d[k].append(x)`, creating the list lazily. -/
def dictAppend {α : Type} : Dict (List α) → String → α → Dict (List α)
  | [], k, x => [(k, [x])]
  | (k', l) :: rest, k, x =>
    if k' = k then (k', l ++ [x]) :: rest else (k', l) :: dictAppend rest k x

/-- The key sequence of a dictionary. -/
def dictKeys {α : Type} (d : Dict α) : List String := d.map Prod.fst

/-- `uid_to_resource`. -/
abbrev Catalog := Dict Resource

/-- `owner_to_children`. -/
abbrev Adj := Dict (List String)

/-- `owner_to_children.get(uid, [])` (line 213): missing keys read as `[]`. -/
def adjGet (adj : Adj) (k : String) : List String := (dictGet adj k).getD []

/-- The configuration derived from the command line: `SHOW_EVENTS`,
`WITH_EVENT_INFO`, the `kind_to_plural` table and the namespace. -/
structure Args where
  showEvents : Bool
  withEventInfo : Bool
  k2p : Dict String
  ns : String

/-- One step of the collection loop (lines 120-145): an `Event` item is
dropped when `SHOW_EVENTS` is false; otherwise the normalized entry is
stored under its uid, with the `message` field kept only for events when
`WITH_EVENT_INFO` is set (lines 141-142). -/
def normalizeItem (a : Args) (item : RawItem) : Resource :=
  { kind := item.kind
    name := item.name
    ns := a.ns
    uid := item.uid
    owners := item.owners
    message :=
      if item.kind = "Event" ∧ a.withEventInfo then some (item.message.getD "")
      else none }

def putResource (a : Args) (cat : Catalog) (item : RawItem) : Catalog :=
  if item.kind = "Event" ∧ ¬ a.showEvents then cat
  else dictSet cat item.uid (normalizeItem a item)

/-- The whole collection loop: fold `putResource` over the fetched items. -/
def buildCatalog (a : Args) (items : List RawItem) : Catalog :=
  items.foldl (putResource a) []

/-- Lines 148-151: for every resource, for every owner reference, append
the resource's uid to the owner uid's child list. -/
def owner_to_children (cat : Catalog) : Adj :=
  cat.foldl (fun adj p => p.2.owners.foldl (fun a o => dictAppend a o.uid p.1) adj) []

/-- The root test of lines 156-165: no owners at all, or some owner uid
absent from the catalog. -/
def isTopLevelRes (cat : Catalog) (r : Resource) : Bool :=
  r.owners.isEmpty || r.owners.any (fun o => (dictGet cat o.uid).isNone)

/-- Lines 153-165: the `top_level` list, in catalog iteration order. -/
def top_level (cat : Catalog) : List String :=
  (cat.filter (fun p => isTopLevelRes cat p.2)).map Prod.fst

/-- One iteration of the grouping loop of lines 167-172. The catalog
lookup cannot miss because `top_level` only returns catalog keys. -/
def kindStep (showEvents : Bool) (cat : Catalog) (g : Dict (List String))
    (uid : String) : Dict (List String) :=
  match dictGet cat uid with
  | none => g
  | some r =>
    if r.kind = "Event" ∧ ¬ showEvents then g else dictAppend g r.kind uid

/-- Lines 167-172: partition the top-level uids by kind (the `Event`
check is vacuous for catalogs built with the same flag, since such
events were already dropped at insertion). -/
def kind_groups (showEvents : Bool) (cat : Catalog) : Dict (List String) :=
  (top_level cat).foldl (kindStep showEvents cat) []

/-- Python's `str.upper` (character-wise; ASCII case mapping, which
covers every kind name the script meets). -/
def pyToUpper (s : String) : String := ⟨s.data.map Char.toUpper⟩

/-- Python's `str.lower` (character-wise; ASCII case mapping). -/
def pyToLower (s : String) : String := ⟨s.data.map Char.toLower⟩

/-- Whether a top-level uid lands in the group of kind `k`
(specification-side restatement of the `kind_groups` step test). -/
def groupTest (se : Bool) (cat : Catalog) (k : String) (uid : String) : Bool :=
  match dictGet cat uid with
  | none => false
  | some r => decide (r.kind = k) && ! (decide (r.kind = "Event") && ! se)

/-- Line 179: the deterministic synthetic identity for a kind. -/
def pseudoUidOf (kind : String) : String := "PSEUDO_" ++ pyToUpper kind ++ "_NODE"

/-- Python's `str.capitalize`: first character uppercased, rest lowercased. -/
def pyCapitalize (s : String) : String :=
  match s.data with
  | [] => ""
  | c :: cs => ⟨c.toUpper :: cs.map Char.toLower⟩

/-- The three mutable objects threaded by the synthesis loop of
lines 174-189: `pseudo_nodes`, `uid_to_resource`, `owner_to_children`. -/
structure SynthState where
  pseudo_nodes : Dict String
  cat : Catalog
  adj : Adj
deriving Repr, DecidableEq

/-- The synthetic grouping resource of lines 181-187: display kind is
the capitalized plural, name empty, no owners. -/
def pseudoRes (a : Args) (kind : String) : Resource :=
  { kind := pyCapitalize ((dictGet a.k2p kind).getD (pyToLower kind ++ "s"))
    name := ""
    ns := a.ns
    uid := pseudoUidOf kind
    owners := []
    message := none }

/-- One iteration of the loop of lines 175-189 on a `kind_groups` entry. -/
def synthStep (a : Args) (st : SynthState) (g : String × List String) : SynthState :=
  if g.1 = "Event" ∧ ¬ a.showEvents then st
  else
    { pseudo_nodes := dictSet st.pseudo_nodes g.1 (pseudoUidOf g.1)
      cat := dictSet st.cat (pseudoUidOf g.1) (pseudoRes a g.1)
      adj := g.2.foldl (fun ad c => dictAppend ad (pseudoUidOf g.1) c) st.adj }

/-- Lines 174-189 as a fold over `kind_groups`. -/
def synthesize (a : Args) (cat : Catalog) (adj : Adj) : SynthState :=
  (kind_groups a.showEvents cat).foldl (synthStep a) ⟨[], cat, adj⟩

/-- `resource_sort_key` / `pseudo_sort_key` (lines 193-201): the pair
`(kind.lower(), name.lower())` of the looked-up resource.  Within the
pipeline the lookup always succeeds; the `("", "")` branch is the
missing-key default and is never reached from the rendering loop. -/
def sortKey (cat : Catalog) (uid : String) : String × String :=
  match dictGet cat uid with
  | some r => (pyToLower r.kind, pyToLower r.name)
  | none => ("", "")

/-- Python string `<`: lexicographic comparison by code point. -/
def strLt : List Char → List Char → Bool
  | [], [] => false
  | [], _ :: _ => true
  | _ :: _, [] => false
  | a :: as, b :: bs =>
    if a.toNat < b.toNat then true
    else if b.toNat < a.toNat then false
    else strLt as bs

/-- Python string `<=` (total order: `a <= b` iff `not (b < a)`). -/
def strLe (a b : List Char) : Bool := ! strLt b a

/-- Python tuple `<=` on sort keys: lexicographic on the two strings. -/
def keyLeb (a b : String × String) : Bool :=
  if strLt a.1.data b.1.data then true
  else if strLt b.1.data a.1.data then false
  else strLe a.2.data b.2.data

/-- Lexicographic comparison of sort keys, i.e. Python tuple `<=`. -/
def keyLE (a b : String × String) : Prop := keyLeb a b = true

instance : DecidableRel keyLE := fun a b => by
  unfold keyLE; exact inferInstance

/-- The uid ordering used by `list.sort(key=resource_sort_key)`. -/
def uidLE (cat : Catalog) (u v : String) : Prop := keyLE (sortKey cat u) (sortKey cat v)

instance (cat : Catalog) : DecidableRel (uidLE cat) := fun u v => by
  unfold uidLE; exact inferInstance

theorem strLt_irrefl : ∀ a : List Char, strLt a a = false := by
  intro a
  induction a with
  | nil => rfl
  | cons c cs ih => simp [strLt, ih]

theorem strLt_asymm : ∀ a b : List Char, strLt a b = true → strLt b a = false := by
  intro a
  induction a with
  | nil => intro b h; cases b <;> simp [strLt] at h ⊢
  | cons c cs ih =>
    intro b h
    cases b with
    | nil => simp [strLt] at h
    | cons d ds =>
      by_cases h1 : c.toNat < d.toNat
      · have h2 : ¬ d.toNat < c.toNat := by omega
        simp [strLt, h1, h2]
      · by_cases h2 : d.toNat < c.toNat
        · simp [strLt, h1, h2] at h
        · simp [strLt, h1, h2] at h ⊢
          exact ih ds h

theorem strLt_eq_of_not : ∀ a b : List Char, strLt a b = false → strLt b a = false → a = b := by
  intro a
  induction a with
  | nil => intro b h1 h2; cases b <;> simp_all [strLt]
  | cons c cs ih =>
    intro b h1 h2
    cases b with
    | nil => simp [strLt] at h2
    | cons d ds =>
      by_cases hc : c.toNat < d.toNat
      · simp [strLt, hc] at h1
      · by_cases hd : d.toNat < c.toNat
        · simp [strLt, hd] at h2
        · simp [strLt, hc, hd] at h1 h2
          have hcd : c.toNat = d.toNat := by omega
          have : c = d := Char.ext (UInt32.ext hcd)
          rw [this, ih ds h1 h2]

theorem strLt_trans : ∀ a b c : List Char,
    strLt a b = true → strLt b c = true → strLt a c = true := by
  intro a
  induction a with
  | nil =>
    intro b c h1 h2
    cases b with
    | nil => simp [strLt] at h1
    | cons d ds => cases c with
      | nil => simp [strLt] at h2
      | cons e es => rfl
  | cons x xs ih =>
    intro b c h1 h2
    cases b with
    | nil => simp [strLt] at h1
    | cons y ys =>
      cases c with
      | nil => simp [strLt] at h2
      | cons z zs =>
        by_cases hxy : x.toNat < y.toNat
        · by_cases hyz : y.toNat < z.toNat
          · have : x.toNat < z.toNat := by omega
            simp [strLt, this]
          · by_cases hzy : z.toNat < y.toNat
            · simp [strLt, hyz, hzy] at h2
            · have hyzn : y.toNat = z.toNat := by omega
              have : x.toNat < z.toNat := by omega
              simp [strLt, this]
        · by_cases hyx : y.toNat < x.toNat
          · simp [strLt, hxy, hyx] at h1
          · have hxyn : x.toNat = y.toNat := by omega
            by_cases hyz : y.toNat < z.toNat
            · have : x.toNat < z.toNat := by omega
              simp [strLt, this]
            · by_cases hzy : z.toNat < y.toNat
              · simp [strLt, hyz, hzy] at h2
              · have hxz : ¬ x.toNat < z.toNat := by omega
                have hzx : ¬ z.toNat < x.toNat := by omega
                simp [strLt, hxy, hyx] at h1
                simp [strLt, hyz, hzy] at h2
                simp [strLt, hxz, hzx]
                exact ih ys zs h1 h2

theorem keyLE_total_aux (a b : String × String) : keyLE a b ∨ keyLE b a := by
  unfold keyLE keyLeb strLe
  cases h1 : strLt a.1.data b.1.data with
  | true => left; simp [h1]
  | false =>
    cases h2 : strLt b.1.data a.1.data with
    | true => right; simp [h1, h2]
    | false =>
      cases h3 : strLt b.2.data a.2.data with
      | false => left; simp [h1, h2, h3]
      | true =>
        right
        simp [h1, h2, strLt_asymm _ _ h3]

theorem keyLE_trans_aux (a b c : String × String)
    (hab : keyLE a b) (hbc : keyLE b c) : keyLE a c := by
  unfold keyLE keyLeb strLe at hab hbc ⊢
  cases h1 : strLt a.1.data b.1.data with
  | true =>
    cases h2 : strLt b.1.data c.1.data with
    | true => simp [strLt_trans _ _ _ h1 h2]
    | false =>
      cases h3 : strLt c.1.data b.1.data with
      | true => simp [h2, h3] at hbc
      | false =>
        have e : b.1.data = c.1.data := strLt_eq_of_not _ _ h2 h3
        simp [e ▸ h1]
  | false =>
    cases h2 : strLt b.1.data a.1.data with
    | true => simp [h1, h2] at hab
    | false =>
      have e1 : a.1.data = b.1.data := strLt_eq_of_not _ _ h1 h2
      cases h3 : strLt b.1.data c.1.data with
      | true => simp [e1 ▸ h3]
      | false =>
        cases h4 : strLt c.1.data b.1.data with
        | true => simp [h3, h4] at hbc
        | false =>
          have e2 : b.1.data = c.1.data := strLt_eq_of_not _ _ h3 h4
          have hx1 : strLt a.1.data c.1.data = false := by
            rw [e1, e2]; exact strLt_irrefl _
          have hx2 : strLt c.1.data a.1.data = false := by
            rw [e1, e2]; exact strLt_irrefl _
          simp [h1, h2] at hab
          simp [h3, h4] at hbc
          cases h5 : strLt c.2.data a.2.data with
          | false => simp [hx1, hx2, h5]
          | true =>
            exfalso
            cases h6 : strLt a.2.data b.2.data with
            | true =>
              have ht := strLt_trans _ _ _ h5 h6
              simp [ht] at hbc
            | false =>
              have e3 : a.2.data = b.2.data := strLt_eq_of_not _ _ h6 hab
              rw [e3] at h5
              simp [h5] at hbc

instance keyLE_total : IsTotal (String × String) keyLE where
  total a b := keyLE_total_aux a b

instance keyLE_trans : IsTrans (String × String) keyLE where
  trans a b c hab hbc := keyLE_trans_aux a b c hab hbc

instance uidLE_total (cat : Catalog) : IsTotal String (uidLE cat) where
  total u v := keyLE_total_aux (sortKey cat u) (sortKey cat v)

instance uidLE_trans (cat : Catalog) : IsTrans String (uidLE cat) where
  trans _ _ _ h1 h2 := keyLE_trans_aux _ _ _ h1 h2

/-- `children.sort(key=resource_sort_key)` as a function: Python's
`list.sort` is a stable sort by the key, and `List.insertionSort` with
this relation is stable in the same sense. -/
def sortChildren (cat : Catalog) (l : List String) : List String :=
  List.insertionSort (uidLE cat) l

/-- The in-place effect of line 214 on `owner_to_children`: sorting the
entry of `uid` if that key is present (if absent, `get` returned a fresh
list and the dictionary is untouched). -/
def adjSortAt (cat : Catalog) (adj : Adj) (uid : String) : Adj :=
  match dictGet adj uid with
  | none => adj
  | some l => dictSet adj uid (sortChildren cat l)

/-- Lines 205-209: the branch glyph and display label of one node. -/
def nodeLine (r : Resource) (pre : String) (isLast : Bool) : String :=
  let branch := if isLast then "└── " else "├── "
  if r.name ≠ "" then pre ++ branch ++ r.kind ++ "/" ++ r.name
  else pre ++ branch ++ r.kind

/-- Lines 211/215: the indentation passed to children. -/
def childIndent (pre : String) (isLast : Bool) : String :=
  pre ++ (if isLast then "    " else "│   ")

/-- Lines 210-212: the extra annotation line for events. -/
def messageLines (wei : Bool) (r : Resource) (cp : String) : List String :=
  if wei ∧ r.kind = "Event" then
    match r.message with
    | some m => [cp ++ "└── message: " ++ m]
    | none => []
  else []

/-- The sibling loop of lines 216-217 (and the top-level loop of
lines 373-374): run `step` on each uid with `is_last` set on the final
one, threading the mutated adjacency, concatenating emitted lines and
the ghost visit sequence.  `none` aborts (propagating the inner
abort). -/
def forestFold (step : String → String → Bool → Adj → Option (List String × List String × Adj)) :
    List String → String → Adj → Option (List String × List String × Adj)
  | [], _, adj => some ([], [], adj)
  | c :: rest, pre, adj =>
    match step c pre rest.isEmpty adj with
    | none => none
    | some (l1, v1, adj1) =>
      match forestFold step rest pre adj1 with
      | none => none
      | some (l2, v2, adj2) => some (l1 ++ l2, v1 ++ v2, adj2)

/-- `print_tree` (lines 203-217), with an explicit recursion-depth fuel:
Python has no fuel, so "the call terminates" is rendered as "some fuel
suffices" and "the call never returns" as "every fuel yields `none`"
(`none` also covers the `KeyError` on a uid missing from the catalog,
which cannot occur for pipeline-built adjacency values).  The result is
`(emitted lines, preorder visit sequence of uids, mutated adjacency)`;
the visit sequence is ghost output recording which node each printed
line belongs to. -/
def print_tree (cat : Catalog) (wei : Bool) :
    Nat → String → String → Bool → Adj → Option (List String × List String × Adj)
  | 0, _, _, _, _ => none
  | fuel + 1, uid, pre, isLast, adj =>
    match dictGet cat uid with
    | none => none
    | some r =>
      let cs := sortChildren cat (adjGet adj uid)
      let adj1 := adjSortAt cat adj uid
      let cp := childIndent pre isLast
      match forestFold (fun c p l ad => print_tree cat wei fuel c p l ad) cs cp adj1 with
      | none => none
      | some (ls, vs, adj2) =>
        some (nodeLine r pre isLast :: (messageLines wei r cp ++ ls), uid :: vs, adj2)

/-- The rendering loop of lines 372-374: `print_tree` on each top-level
synthetic uid with empty indentation. -/
def render (cat : Catalog) (wei : Bool) (fuel : Nat) (tlk : List String) (adj : Adj) :
    Option (List String × List String × Adj) :=
  forestFold (fun c p l ad => print_tree cat wei fuel c p l ad) tlk "" adj

/-- The whole graph-building pipeline (module level, lines 147-197):
catalog, adjacency, synthesis, and the sorted `top_level_kinds` list. -/
def pipeline (a : Args) (items : List RawItem) : SynthState × List String :=
  let cat := buildCatalog a items
  let adj := owner_to_children cat
  let st := synthesize a cat adj
  (st, List.insertionSort (uidLE st.cat) (st.pseudo_nodes.map Prod.snd))

/-! ### Fingerprint extraction (lines 220-277 and 322-366)

`extract_resource_summary` shells out to `kubectl` for a fresh copy of
the resource, so its result is external input: it is modelled as an
oracle `Oracle` mapping `(kind, name, namespace)` to the summary
dictionary.  Only the `containers` entry is interpreted by
`gather_fingerprint`; the remaining summary keys are carried opaquely. -/

/-- A container entry `{"name": ..., "image": ...}` (lines 258/262). -/
structure Container where
  name : String
  image : String
deriving Repr, DecidableEq

/-- The summary dictionary returned by `extract_resource_summary`:
the `containers` key is present iff `containers = some _`; every other
key/value pair is opaque payload in `rest`. -/
structure Summary where
  containers : Option (List Container) := none
  rest : Dict String := []
deriving Repr, DecidableEq

/-- The external `extract_resource_summary` collaborator. -/
abbrev Oracle := String → String → String → Summary

/-- A processed container entry: the raw image string replaced by its
token (lines 345-346). -/
structure ContainerOut where
  name : String
  imageRef : String
deriving Repr, DecidableEq

/-- A processed per-resource summary. -/
structure SummaryOut where
  containers : Option (List ContainerOut) := none
  rest : Dict String := []
deriving Repr, DecidableEq

/-- A value of the fingerprint document: either a processed summary or
the reserved `_image_map` reverse mapping. -/
inductive DocVal where
  | summary (s : SummaryOut)
  | imageMap (m : Dict String)
deriving Repr, DecidableEq

/-- The deduplication state `(all_images, image_ref_count)`
(lines 327-328): image string to token, and tokens minted so far. -/
abbrev ImgState := Dict String × Nat

/-- The container loop of lines 339-347: mint a token for a first-seen
image (`image_ref_{count+1}`), reuse the stored token otherwise, and
replace `image` by `imageRef`. -/
def processContainers : ImgState → List Container → ImgState × List ContainerOut
  | st, [] => (st, [])
  | (ai, cnt), c :: cs =>
    let st1 : ImgState :=
      if (dictGet ai c.image).isSome then (ai, cnt)
      else (dictSet ai c.image ("image_ref_" ++ toString (cnt + 1)), cnt + 1)
    let tok := (dictGet st1.1 c.image).getD ""
    let (st2, rest) := processContainers st1 cs
    (st2, { name := c.name, imageRef := tok } :: rest)

/-- `process_resource` (lines 330-349): fetch the summary through the
oracle; when it has a `containers` key, deduplicate the images. -/
def process_resource (oracle : Oracle) (st : ImgState) (r : Resource) :
    ImgState × SummaryOut :=
  let summary := oracle r.kind r.name r.ns
  match summary.containers with
  | none => (st, { containers := none, rest := summary.rest })
  | some cs =>
    let (st', outs) := processContainers st cs
    (st', { containers := some outs, rest := summary.rest })

/-- The per-document loop of lines 353-358: process every catalog entry
(in iteration order) and store it under `"{kind}/{name}"`. -/
def buildDoc (oracle : Oracle) (cat : Catalog) (st0 : ImgState) :
    ImgState × Dict DocVal :=
  cat.foldl
    (fun acc p =>
      let (st1, fp) := process_resource oracle acc.1 p.2
      (st1, dictSet acc.2 (p.2.kind ++ "/" ++ p.2.name) (DocVal.summary fp)))
    (st0, [])

/-- Lines 359-360: attach the reverse map under `_image_map` iff any
image was seen. -/
def finishDoc (st : ImgState) (doc : Dict DocVal) : Dict DocVal :=
  if st.1.isEmpty then doc
  else dictSet doc "_image_map" (DocVal.imageMap (st.1.map (fun p => (p.2, p.1))))

/-- One iteration of the per-root-instance loop of lines 352-365:
build a full document pass from the current dedup state, attach the
image map, and record the `(file name, document)` artifact. -/
def gatherStep (oracle : Oracle) (cat : Catalog)
    (acc : ImgState × List (String × Dict DocVal)) (ceUid : String) :
    ImgState × List (String × Dict DocVal) :=
  let q := buildDoc oracle cat acc.1
  let ceName := ((dictGet cat ceUid).map Resource.name).getD ""
  (q.1, acc.2 ++ [(ceName ++ "-state.json", finishDoc q.1 q.2)])

/-- `gather_fingerprint` (lines 322-366), generalized over the
designated root kind (the script fixes it to `"ClusterExtension"`).
Returns the `(file name, document)` pairs the script writes; the
deduplication state persists across the per-root-instance loop exactly
as `all_images` / `image_ref_count` do. -/
def gatherFingerprint (rootKind : String) (oracle : Oracle) (cat : Catalog)
    (ns : String) : List (String × Dict DocVal) :=
  let ce_uids :=
    (cat.filter (fun p => p.2.kind = rootKind ∧ p.2.ns = ns)).map Prod.fst
  if ce_uids.isEmpty then []
  else (ce_uids.foldl (gatherStep oracle cat) (([], 0), [])).2

/-- The script's `gather_fingerprint`, with its hard-coded root kind. -/
def gather_fingerprint (oracle : Oracle) (cat : Catalog) (ns : String) :
    List (String × Dict DocVal) :=
  gatherFingerprint "ClusterExtension" oracle cat ns

/-! ### Verification-side definitions -/

/-- The sequential token list `["image_ref_1", …, "image_ref_n"]`. -/
def tokenRange (n : Nat) : List String :=
  (List.range n).map (fun i => "image_ref_" ++ toString (i + 1))

/-- The dedup-state invariant: the counter equals the number of minted
tokens, and the minted tokens are exactly the sequential range in
first-seen order. -/
def ImgInv (st : ImgState) : Prop :=
  st.2 = st.1.length ∧ st.1.map Prod.snd = tokenRange st.1.length

/-- First occurrences of a sequence that are new relative to `seen`,
kept in encounter order. -/
def firstSeenAux (seen : List String) : List String → List String
  | [] => []
  | x :: xs => if x ∈ seen then firstSeenAux seen xs else x :: firstSeenAux (x :: seen) xs

/-- The container-image strings of one summary, in order. -/
def summaryImages (s : Summary) : List String :=
  match s.containers with
  | none => []
  | some cs => cs.map Container.image

/-- All image occurrences of one document pass, in processing order. -/
def imagesOf (oracle : Oracle) : List (String × Resource) → List String
  | [] => []
  | p :: rest => summaryImages (oracle p.2.kind p.2.name p.2.ns) ++ imagesOf oracle rest

/-- Value of a base-10 digit character (inverse of `Nat.digitChar`). -/
def digitVal (c : Char) : Nat := c.toNat - 48

/-- Value of a most-significant-first digit string. -/
def valOfDigits : List Char → Nat
  | [] => 0
  | c :: cs => digitVal c * 10 ^ cs.length + valOfDigits cs

/-- A summary as it appears in the finished document: every container
image replaced by the token the final dedup state assigns it. -/
def mkOut (st : ImgState) (s : Summary) : SummaryOut :=
  { containers := s.containers.map
      (List.map (fun c => { name := c.name, imageRef := (dictGet st.1 c.image).getD "" }))
    rest := s.rest }

/-- The dedup state after the first (in the usual case, only) document
pass of one `gather_fingerprint` call. -/
def firstDocState (oracle : Oracle) (cat : Catalog) : ImgState :=
  (buildDoc oracle cat ([], 0)).1

/-- The first fingerprint document one `gather_fingerprint` call writes. -/
def firstDoc (oracle : Oracle) (cat : Catalog) : Dict DocVal :=
  finishDoc (firstDocState oracle cat) (buildDoc oracle cat ([], 0)).2

/-- Two adjacency dictionaries that differ only by in-place sorting of
some entries (the only mutation rendering performs). -/
def adjSim (cat : Catalog) (a b : Adj) : Prop :=
  ∀ k, sortChildren cat (adjGet a k) = sortChildren cat (adjGet b k)

/-- Relating two traversal outcomes: both abort, or both succeed with
identical lines and visit sequences and `adjSim`-related dictionaries. -/
def simOut (cat : Catalog) :
    Option (List String × List String × Adj) → Option (List String × List String × Adj) → Prop
  | none, none => True
  | some (l1, v1, a1), some (l2, v2, a2) => l1 = l2 ∧ v1 = v2 ∧ adjSim cat a1 a2
  | _, _ => False

/-- Reachability from a root list along the adjacency index. -/
inductive Reach (adj : Adj) (roots : List String) : String → Prop
  | root {u : String} : u ∈ roots → Reach adj roots u
  | step {v u : String} : Reach adj roots v → u ∈ adjGet adj v → Reach adj roots u

/-- A nonempty directed path `u →+ v` along the adjacency index. -/
inductive Steps (adj : Adj) : String → String → Prop
  | single {u v : String} : v ∈ adjGet adj u → Steps adj u v
  | cons {u v w : String} : v ∈ adjGet adj u → Steps adj v w → Steps adj u w

/-- A possibly empty directed path `u →* v` along the adjacency index. -/
inductive Star (adj : Adj) : String → String → Prop
  | refl (u : String) : Star adj u u
  | head {u v w : String} : v ∈ adjGet adj u → Star adj v w → Star adj u w

/-- `u` can reach a node lying on a directed cycle. -/
def PathToCycle (adj : Adj) (u : String) : Prop :=
  ∃ v, Star adj u v ∧ Steps adj v v

/-- The number of visits of `x` in the subtree traversal rooted at `p`
with recursion budget `fuel` (the specification-side count of how often
`print_tree` prints `x` below `p`). -/
def visitCount (adj : Adj) : Nat → String → String → Nat
  | 0, _, _ => 0
  | fuel + 1, p, x =>
    (if p = x then 1 else 0) +
      ((adjGet adj p).map (fun c => visitCount adj fuel c x)).sum

/-- Total number of owner-reference occurrences of the resource stored
at key `u` that target `k` (counts every duplicate binding of `u`). -/
def ownerEdges (cat : Catalog) (u k : String) : Nat :=
  ((cat.filter (fun p => p.1 = u)).map
    (fun p => p.2.owners.countP (fun o => o.uid = k))).sum

/-- The unique tree parent of a node in a single-owner catalog: a
top-level resource hangs below its kind's synthetic node, a non-root
below its (sole, present) owner; synthetic and unknown identities are
parentless. -/
def parentOf (cat : Catalog) (u : String) : Option String :=
  match dictGet cat u with
  | some r =>
    if isTopLevelRes cat r then some (pseudoUidOf r.kind)
    else (r.owners.head?).map OwnerRef.uid
  | none => none

/-! ### Concrete fixtures used by witnesses and counterexamples -/

/-- A configuration showing events, without event info. -/
def argsA : Args := { showEvents := true, withEventInfo := false, k2p := [], ns := "ns" }

/-- Two same-kind roots inserted in reverse display order. -/
def itemsKba : List RawItem :=
  [ { kind := "K", name := "b", uid := "u1", owners := [] },
    { kind := "K", name := "a", uid := "u2", owners := [] } ]

/-- A resource (`u3`) with two owner references, both present. -/
def itemsTwoOwners : List RawItem :=
  [ { kind := "K", name := "p1", uid := "u1", owners := [] },
    { kind := "K", name := "p2", uid := "u2", owners := [] },
    { kind := "L", name := "b", uid := "u3",
      owners := [⟨"K", "p1", "u1"⟩, ⟨"K", "p2", "u2"⟩] } ]

/-- The scenario of the specification: `A(uid 1)` unowned, `B(uid 2)`
owned by `1`, `C(uid 3)` owned by the absent `99`. -/
def itemsScenario : List RawItem :=
  [ { kind := "W", name := "a", uid := "1", owners := [] },
    { kind := "X", name := "b", uid := "2", owners := [⟨"W", "a", "1"⟩] },
    { kind := "Y", name := "c", uid := "3", owners := [⟨"Z", "z", "99"⟩] } ]

/-- An external-summary oracle returning the empty summary. -/
def oracleEmpty : Oracle := fun _ _ _ => {}

/-- A configuration with events excluded. -/
def argsNoEv : Args := { showEvents := false, withEventInfo := false, k2p := [], ns := "ns" }

/-- An excluded `Event` (`e1`) owning a visible resource (`d1`). -/
def itemsEvOwner : List RawItem :=
  [ { kind := "Event", name := "ev", uid := "e1", owners := [] },
    { kind := "D", name := "d", uid := "d1", owners := [⟨"Event", "ev", "e1"⟩] } ]

/-- The catalog entry stored for `d1` in `itemsEvOwner`. -/
def resD1 : Resource :=
  { kind := "D", name := "d", ns := "ns", uid := "d1",
    owners := [⟨"Event", "ev", "e1"⟩], message := none }

/-- The catalog entry the scenario stores for uid `2`. -/
def resScenario2 : Resource :=
  { kind := "X", name := "b", ns := "ns", uid := "2",
    owners := [⟨"W", "a", "1"⟩], message := none }

/-- An oracle fixture: every `Pod` reports two containers sharing one
image string. -/
def oracleImg : Oracle := fun kind _ _ =>
  if kind = "Pod" then
    { containers := some [⟨"c1", "img.example/x:1"⟩, ⟨"c2", "img.example/x:1"⟩]
      rest := [] }
  else {}

/-- A `ClusterExtension` plus two pods (whose summaries share images). -/
def itemsFp : List RawItem :=
  [ { kind := "ClusterExtension", name := "ce", uid := "ce1", owners := [] },
    { kind := "Pod", name := "p1", uid := "pu1", owners := [] },
    { kind := "Pod", name := "p2", uid := "pu2", owners := [] } ]

/-- A two-node ownership cycle: `c1` and `c2` own each other, and `c1`
is also claimed by the root `r0` (so the cycle is reachable). -/
def itemsCycle : List RawItem :=
  [ { kind := "R", name := "r", uid := "r0", owners := [] },
    { kind := "C", name := "x", uid := "c1",
      owners := [⟨"C", "y", "c2"⟩, ⟨"R", "r", "r0"⟩] },
    { kind := "C", name := "y", uid := "c2", owners := [⟨"C", "x", "c1"⟩] } ]

/-! ### Dictionary lemmas -/

theorem dictGet_dictSet {α : Type} (d : Dict α) (k k' : String) (v : α) :
    dictGet (dictSet d k v) k' = if k = k' then some v else dictGet d k' := by
  induction d with
  | nil => by_cases h : k = k' <;> simp [dictSet, dictGet, h]
  | cons p rest ih =>
    obtain ⟨k0, v0⟩ := p
    by_cases h0 : k0 = k
    · subst h0
      by_cases h : k0 = k' <;> simp [dictSet, dictGet, h]
    · by_cases h : k0 = k'
      · subst h
        have : ¬ k = k0 := fun he => h0 he.symm
        simp [dictSet, dictGet, h0, this]
      · simp [dictSet, dictGet, h0, h, ih]

theorem adjGet_dictAppend {α : Type} (d : Dict (List α)) (k k' : String) (x : α) :
    (dictGet (dictAppend d k x) k').getD [] =
      if k = k' then (dictGet d k).getD [] ++ [x] else (dictGet d k').getD [] := by
  induction d with
  | nil => by_cases h : k = k' <;> simp [dictAppend, dictGet, h]
  | cons p rest ih =>
    obtain ⟨k0, v0⟩ := p
    by_cases h0 : k0 = k
    · subst h0
      by_cases h : k0 = k' <;> simp [dictAppend, dictGet, h]
    · by_cases h : k0 = k'
      · subst h
        have : ¬ k = k0 := fun he => h0 he.symm
        simp [dictAppend, dictGet, h0, this]
      · simp [dictAppend, dictGet, h0, h, ih]

theorem dictGet_dictAppend_ne {α : Type} (d : Dict (List α)) (k k' : String) (x : α)
    (h : k ≠ k') : dictGet (dictAppend d k x) k' = dictGet d k' := by
  induction d with
  | nil => simp [dictAppend, dictGet, h]
  | cons p rest ih =>
    obtain ⟨k0, v0⟩ := p
    by_cases h0 : k0 = k
    · subst h0
      simp [dictAppend, dictGet, h]
    · by_cases h1 : k0 = k' <;> simp [dictAppend, dictGet, h0, h1, Ne.symm h, ih]

theorem dictKeys_nil {α : Type} : dictKeys ([] : Dict α) = [] := rfl

theorem dictKeys_cons {α : Type} (p : String × α) (d : Dict α) :
    dictKeys (p :: d) = p.1 :: dictKeys d := rfl

theorem mem_dictKeys_iff {α : Type} (d : Dict α) (k : String) :
    k ∈ dictKeys d ↔ (dictGet d k).isSome := by
  induction d with
  | nil => simp [dictKeys, dictGet]
  | cons p rest ih =>
    obtain ⟨k0, v0⟩ := p
    by_cases h : k0 = k
    · subst h; simp [dictKeys_cons, dictGet]
    · rw [dictKeys_cons]
      simp only [List.mem_cons, dictGet, h, if_false]
      rw [← ih]
      simp [Ne.symm h]

theorem dictKeys_dictSet {α : Type} (d : Dict α) (k : String) (v : α) :
    dictKeys (dictSet d k v) =
      if (dictGet d k).isSome then dictKeys d else dictKeys d ++ [k] := by
  induction d with
  | nil => simp [dictSet, dictKeys, dictGet]
  | cons p rest ih =>
    obtain ⟨k0, v0⟩ := p
    by_cases h : k0 = k
    · subst h; simp [dictSet, dictKeys_cons, dictGet]
    · rw [dictSet, if_neg h, dictKeys_cons, dictKeys_cons, ih, dictGet, if_neg h]
      by_cases h2 : (dictGet rest k).isSome <;> simp [h2]

theorem dictKeys_dictAppend {α : Type} (d : Dict (List α)) (k : String) (x : α) :
    dictKeys (dictAppend d k x) =
      if (dictGet d k).isSome then dictKeys d else dictKeys d ++ [k] := by
  induction d with
  | nil => simp [dictAppend, dictKeys, dictGet]
  | cons p rest ih =>
    obtain ⟨k0, v0⟩ := p
    by_cases h : k0 = k
    · subst h; simp [dictAppend, dictKeys_cons, dictGet]
    · rw [dictAppend, if_neg h, dictKeys_cons, dictKeys_cons, ih, dictGet, if_neg h]
      by_cases h2 : (dictGet rest k).isSome <;> simp [h2]

theorem nodup_dictKeys_dictSet {α : Type} (d : Dict α) (k : String) (v : α)
    (h : (dictKeys d).Nodup) : (dictKeys (dictSet d k v)).Nodup := by
  rw [dictKeys_dictSet]
  by_cases hs : (dictGet d k).isSome
  · simpa [hs]
  · have : k ∉ dictKeys d := by
      rw [mem_dictKeys_iff]; simpa using hs
    simp only [hs, if_false]
    simpa [List.nodup_append] using ⟨h, this⟩

theorem nodup_dictKeys_dictAppend {α : Type} (d : Dict (List α)) (k : String) (x : α)
    (h : (dictKeys d).Nodup) : (dictKeys (dictAppend d k x)).Nodup := by
  rw [dictKeys_dictAppend]
  by_cases hs : (dictGet d k).isSome
  · simpa [hs]
  · have : k ∉ dictKeys d := by
      rw [mem_dictKeys_iff]; simpa using hs
    simp only [hs, if_false]
    simpa [List.nodup_append] using ⟨h, this⟩

theorem dictGet_eq_some_mem {α : Type} {d : Dict α} {k : String} {v : α}
    (h : dictGet d k = some v) : (k, v) ∈ d := by
  induction d with
  | nil => simp [dictGet] at h
  | cons p rest ih =>
    obtain ⟨k0, v0⟩ := p
    by_cases h0 : k0 = k
    · subst h0
      simp [dictGet] at h
      simp [h]
    · simp [dictGet, h0] at h
      exact List.mem_cons_of_mem _ (ih h)

theorem mem_dictGet_of_nodup {α : Type} {d : Dict α} {k : String} {v : α}
    (hn : (dictKeys d).Nodup) (h : (k, v) ∈ d) : dictGet d k = some v := by
  induction d with
  | nil => simp at h
  | cons p rest ih =>
    obtain ⟨k0, v0⟩ := p
    rw [dictKeys_cons] at hn
    have hn1 := List.nodup_cons.mp hn
    rcases List.mem_cons.mp h with he | hm
    · cases he
      simp [dictGet]
    · have hk : k0 ≠ k := by
        intro he
        subst he
        exact hn1.1 (List.mem_map.mpr ⟨(k0, v), hm, rfl⟩)
      simp [dictGet, hk]
      exact ih hn1.2 hm

theorem dictGet_eq_none_iff {α : Type} (d : Dict α) (k : String) :
    dictGet d k = none ↔ k ∉ dictKeys d := by
  rw [mem_dictKeys_iff]
  cases h : dictGet d k <;> simp

theorem dictGet_append {α : Type} (d1 d2 : Dict α) (k : String) :
    dictGet (d1 ++ d2) k =
      match dictGet d1 k with
      | some v => some v
      | none => dictGet d2 k := by
  induction d1 with
  | nil => simp [dictGet]
  | cons p rest ih =>
    obtain ⟨k0, v0⟩ := p
    by_cases h : k0 = k <;> simp [dictGet, h, ih]

theorem dictSet_append_fresh {α : Type} (d : Dict α) (k : String) (v : α)
    (h : k ∉ dictKeys d) : dictSet d k v = d ++ [(k, v)] := by
  induction d with
  | nil => rfl
  | cons p rest ih =>
    obtain ⟨k0, v0⟩ := p
    rw [dictKeys_cons, List.mem_cons] at h
    push_neg at h
    rw [dictSet, if_neg (fun he => h.1 he.symm)]
    rw [List.cons_append, ih h.2]

theorem mem_dictKeys_dictAppend {α : Type} (d : Dict (List α)) (k0 k : String) (x : α) :
    k ∈ dictKeys (dictAppend d k0 x) ↔ k ∈ dictKeys d ∨ k = k0 := by
  rw [dictKeys_dictAppend]
  by_cases h : (dictGet d k0).isSome
  · rw [if_pos h]
    constructor
    · exact Or.inl
    · rintro (hm | rfl)
      · exact hm
      · exact (mem_dictKeys_iff d k).mpr h
  · rw [if_neg h]
    simp [or_comm]

theorem foldl_dictSet_fresh {α β : Type} (f : β → String) (v : β → α) :
    ∀ (xs : List β) (d0 : Dict α), (∀ x ∈ xs, f x ∉ dictKeys d0) →
      (xs.map f).Nodup →
      xs.foldl (fun d x => dictSet d (f x) (v x)) d0 =
        d0 ++ xs.map (fun x => (f x, v x)) := by
  intro xs
  induction xs with
  | nil => intro d0 _ _; simp
  | cons x rest ih =>
    intro d0 hfresh hnd
    rw [List.map_cons, List.nodup_cons] at hnd
    rw [List.foldl_cons, dictSet_append_fresh _ _ _ (hfresh x (List.mem_cons_self x rest))]
    rw [ih (d0 ++ [(f x, v x)]) ?hf hnd.2]
    · simp
    case hf =>
      intro y hy
      unfold dictKeys
      rw [List.map_append]
      intro hmem
      rcases List.mem_append.mp hmem with hm | hm
      · exact hfresh y (List.mem_cons_of_mem x hy) hm
      · simp at hm
        exact hnd.1 (hm ▸ List.mem_map_of_mem f hy)

/-! ### Sorting lemmas -/

theorem sortChildren_perm (cat : Catalog) (l : List String) :
    List.Perm (sortChildren cat l) l :=
  List.perm_insertionSort _ l

theorem sortChildren_sorted (cat : Catalog) (l : List String) :
    List.Sorted (uidLE cat) (sortChildren cat l) :=
  List.sorted_insertionSort _ l

theorem sortChildren_idem (cat : Catalog) (l : List String) :
    sortChildren cat (sortChildren cat l) = sortChildren cat l :=
  (sortChildren_sorted cat l).insertionSort_eq

theorem sortChildren_nil (cat : Catalog) : sortChildren cat [] = [] := rfl

theorem mem_sortChildren (cat : Catalog) (l : List String) (u : String) :
    u ∈ sortChildren cat l ↔ u ∈ l :=
  (sortChildren_perm cat l).mem_iff

theorem count_sortChildren (cat : Catalog) (l : List String) (u : String) :
    (sortChildren cat l).count u = l.count u :=
  (sortChildren_perm cat l).count_eq u

/-! ### Adjacency similarity

Rendering mutates `owner_to_children` only by sorting entries in place.
`adjSim cat a b` says two adjacency dictionaries agree up to that
mutation: every entry has the same sorted form (hence the same
multiset of children). -/

theorem adjGet_adjSortAt (cat : Catalog) (adj : Adj) (u k : String) :
    adjGet (adjSortAt cat adj u) k =
      if u = k then sortChildren cat (adjGet adj u) else adjGet adj k := by
  unfold adjSortAt
  cases h : dictGet adj u with
  | none =>
    by_cases he : u = k
    · subst he
      simp [adjGet, h, sortChildren_nil]
    · simp [he]
  | some l =>
    by_cases he : u = k
    · subst he
      simp [adjGet, dictGet_dictSet, h]
    · simp [adjGet, dictGet_dictSet, he]

theorem adjSim_refl (cat : Catalog) (a : Adj) : adjSim cat a a := fun _ => rfl

theorem adjSim_symm {cat : Catalog} {a b : Adj} (h : adjSim cat a b) :
    adjSim cat b a := fun k => (h k).symm

theorem adjSim_trans {cat : Catalog} {a b c : Adj} (h1 : adjSim cat a b)
    (h2 : adjSim cat b c) : adjSim cat a c := fun k => (h1 k).trans (h2 k)

theorem adjSim_perm {cat : Catalog} {a b : Adj} (h : adjSim cat a b) (k : String) :
    List.Perm (adjGet a k) (adjGet b k) :=
  ((sortChildren_perm cat (adjGet a k)).symm.trans
    (h k ▸ sortChildren_perm cat (adjGet b k)))

theorem adjSim_adjSortAt (cat : Catalog) (adj : Adj) (u : String) :
    adjSim cat adj (adjSortAt cat adj u) := by
  intro k
  rw [adjGet_adjSortAt]
  by_cases he : u = k
  · subst he
    simp [sortChildren_idem]
  · simp [he]

theorem adjSim_adjSortAt_congr {cat : Catalog} {a b : Adj} (h : adjSim cat a b)
    (u : String) : adjSim cat (adjSortAt cat a u) (adjSortAt cat b u) := by
  intro k
  rw [adjGet_adjSortAt, adjGet_adjSortAt]
  by_cases he : u = k
  · subst he
    simp only [eq_self_iff_true, if_true, sortChildren_idem]
    exact h u
  · simp only [he, if_false]
    exact h k

/-! ### Machine invariants of `print_tree` -/

theorem print_tree_zero (cat : Catalog) (wei : Bool) (uid pre : String)
    (isLast : Bool) (adj : Adj) :
    print_tree cat wei 0 uid pre isLast adj = none := rfl

theorem print_tree_succ (cat : Catalog) (wei : Bool) (fuel : Nat) (uid pre : String)
    (isLast : Bool) (adj : Adj) :
    print_tree cat wei (fuel + 1) uid pre isLast adj =
      match dictGet cat uid with
      | none => none
      | some r =>
        match forestFold (fun c p l ad => print_tree cat wei fuel c p l ad)
            (sortChildren cat (adjGet adj uid)) (childIndent pre isLast)
            (adjSortAt cat adj uid) with
        | none => none
        | some (ls, vs, adj2) =>
          some (nodeLine r pre isLast :: (messageLines wei r (childIndent pre isLast) ++ ls),
            uid :: vs, adj2) := rfl

/-- `forestFold` preserves any step-preserved adjacency relation. -/
theorem forestFold_sim {cat : Catalog}
    (step : String → String → Bool → Adj → Option (List String × List String × Adj))
    (hstep : ∀ c p l a out, step c p l a = some out → adjSim cat a out.2.2) :
    ∀ (cs : List String) (p : String) (adj : Adj) out,
      forestFold step cs p adj = some out → adjSim cat adj out.2.2 := by
  intro cs
  induction cs with
  | nil =>
    intro p adj out h
    simp [forestFold] at h
    cases h
    exact adjSim_refl cat adj
  | cons c rest ih =>
    intro p adj out h
    rw [forestFold] at h
    cases h1 : step c p rest.isEmpty adj with
    | none => rw [h1] at h; exact absurd h (by simp)
    | some o1 =>
      obtain ⟨l1, v1, a1⟩ := o1
      rw [h1] at h
      dsimp only at h
      cases h2 : forestFold step rest p a1 with
      | none => rw [h2] at h; exact absurd h (by simp)
      | some o2 =>
        obtain ⟨l2, v2, a2⟩ := o2
        rw [h2] at h
        simp at h
        have e1 := hstep c p rest.isEmpty adj _ h1
        have e2 := ih p a1 _ h2
        cases h
        exact adjSim_trans e1 e2

/-- The rendering traversal only re-sorts adjacency entries: its output
dictionary is `adjSim`-related to its input. -/
theorem print_tree_sim (cat : Catalog) (wei : Bool) :
    ∀ (fuel : Nat) (uid pre : String) (isLast : Bool) (adj : Adj) out,
      print_tree cat wei fuel uid pre isLast adj = some out → adjSim cat adj out.2.2 := by
  intro fuel
  induction fuel with
  | zero => intro uid pre isLast adj out h; exact absurd h (by simp [print_tree_zero])
  | succ f ih =>
    intro uid pre isLast adj out h
    rw [print_tree_succ] at h
    cases hr : dictGet cat uid with
    | none => rw [hr] at h; exact absurd h (by simp)
    | some r =>
      rw [hr] at h
      cases hf : forestFold (fun c p l ad => print_tree cat wei f c p l ad)
          (sortChildren cat (adjGet adj uid)) (childIndent pre isLast)
          (adjSortAt cat adj uid) with
      | none => rw [hf] at h; exact absurd h (by simp)
      | some o =>
        obtain ⟨ls, vs, adj2⟩ := o
        rw [hf] at h
        simp at h
        have hsub : adjSim cat (adjSortAt cat adj uid) adj2 :=
          forestFold_sim _ (fun c p l a o ho => ih c p l a o ho) _ _ _ _ hf
        cases h
        exact adjSim_trans (adjSim_adjSortAt cat adj uid) hsub

theorem forestFold_congr {cat : Catalog}
    (step1 step2 : String → String → Bool → Adj → Option (List String × List String × Adj))
    (hstep : ∀ c p l a1 a2, adjSim cat a1 a2 →
      simOut cat (step1 c p l a1) (step2 c p l a2)) :
    ∀ (cs : List String) (p : String) (a1 a2 : Adj), adjSim cat a1 a2 →
      simOut cat (forestFold step1 cs p a1) (forestFold step2 cs p a2) := by
  intro cs
  induction cs with
  | nil =>
    intro p a1 a2 h
    exact ⟨rfl, rfl, h⟩
  | cons c rest ih =>
    intro p a1 a2 h
    rw [forestFold, forestFold]
    have h1 := hstep c p rest.isEmpty a1 a2 h
    cases e1 : step1 c p rest.isEmpty a1 with
    | none =>
      cases e2 : step2 c p rest.isEmpty a2 with
      | none => exact trivial
      | some o2 =>
        rw [e1, e2] at h1
        exact absurd h1 (by simp [simOut])
    | some o1 =>
      cases e2 : step2 c p rest.isEmpty a2 with
      | none =>
        rw [e1, e2] at h1
        obtain ⟨l1, v1, b1⟩ := o1
        exact absurd h1 (by simp [simOut])
      | some o2 =>
        obtain ⟨l1, v1, b1⟩ := o1
        obtain ⟨l2, v2, b2⟩ := o2
        rw [e1, e2] at h1
        obtain ⟨rfl, rfl, hb⟩ := h1
        dsimp only
        have h2 := ih p b1 b2 hb
        cases f1 : forestFold step1 rest p b1 with
        | none =>
          cases f2 : forestFold step2 rest p b2 with
          | none => exact trivial
          | some q2 =>
            rw [f1, f2] at h2
            exact absurd h2 (by simp [simOut])
        | some q1 =>
          cases f2 : forestFold step2 rest p b2 with
          | none =>
            rw [f1, f2] at h2
            obtain ⟨m1, w1, c1⟩ := q1
            exact absurd h2 (by simp [simOut])
          | some q2 =>
            obtain ⟨m1, w1, c1⟩ := q1
            obtain ⟨m2, w2, c2⟩ := q2
            rw [f1, f2] at h2
            obtain ⟨rfl, rfl, hc⟩ := h2
            exact ⟨rfl, rfl, hc⟩

/-- Rendering is a function of the sorted view of the adjacency index:
`adjSim`-related inputs produce identical lines and visit sequences. -/
theorem print_tree_congr (cat : Catalog) (wei : Bool) :
    ∀ (fuel : Nat) (uid pre : String) (isLast : Bool) (a1 a2 : Adj),
      adjSim cat a1 a2 →
      simOut cat (print_tree cat wei fuel uid pre isLast a1)
        (print_tree cat wei fuel uid pre isLast a2) := by
  intro fuel
  induction fuel with
  | zero =>
    intro uid pre isLast a1 a2 h
    rw [print_tree_zero, print_tree_zero]
    exact trivial
  | succ f ih =>
    intro uid pre isLast a1 a2 h
    rw [print_tree_succ, print_tree_succ]
    cases hr : dictGet cat uid with
    | none => exact trivial
    | some r =>
      dsimp only
      have hcs : sortChildren cat (adjGet a1 uid) = sortChildren cat (adjGet a2 uid) :=
        h uid
      rw [hcs]
      have hfold := forestFold_congr _ _
        (fun c p l b1 b2 hb => ih c p l b1 b2 hb)
        (sortChildren cat (adjGet a2 uid)) (childIndent pre isLast)
        (adjSortAt cat a1 uid) (adjSortAt cat a2 uid)
        (adjSim_adjSortAt_congr h uid)
      cases f1 : forestFold (fun c p l ad => print_tree cat wei f c p l ad)
          (sortChildren cat (adjGet a2 uid)) (childIndent pre isLast)
          (adjSortAt cat a1 uid) with
      | none =>
        cases f2 : forestFold (fun c p l ad => print_tree cat wei f c p l ad)
            (sortChildren cat (adjGet a2 uid)) (childIndent pre isLast)
            (adjSortAt cat a2 uid) with
        | none => exact trivial
        | some q2 =>
          rw [f1, f2] at hfold
          exact absurd hfold (by simp [simOut])
      | some q1 =>
        cases f2 : forestFold (fun c p l ad => print_tree cat wei f c p l ad)
            (sortChildren cat (adjGet a2 uid)) (childIndent pre isLast)
            (adjSortAt cat a2 uid) with
        | none =>
          rw [f1, f2] at hfold
          obtain ⟨m1, w1, c1⟩ := q1
          exact absurd hfold (by simp [simOut])
        | some q2 =>
          obtain ⟨m1, w1, c1⟩ := q1
          obtain ⟨m2, w2, c2⟩ := q2
          rw [f1, f2] at hfold
          obtain ⟨rfl, rfl, hc⟩ := hfold
          exact ⟨rfl, rfl, hc⟩

theorem render_sim {cat : Catalog} {wei : Bool} {fuel : Nat} {tlk : List String}
    {adj : Adj} {out : List String × List String × Adj}
    (h : render cat wei fuel tlk adj = some out) : adjSim cat adj out.2.2 :=
  forestFold_sim _ (fun c p l a o ho => print_tree_sim cat wei fuel c p l a o ho)
    tlk "" adj out h

theorem render_congr {cat : Catalog} {wei : Bool} {fuel : Nat} {tlk : List String}
    {a1 a2 : Adj} (h : adjSim cat a1 a2) :
    simOut cat (render cat wei fuel tlk a1) (render cat wei fuel tlk a2) :=
  forestFold_congr _ _ (fun c p l b1 b2 hb => print_tree_congr cat wei fuel c p l b1 b2 hb)
    tlk "" a1 a2 h

/-! ### Catalog construction lemmas -/

theorem buildCatalog_nodup_aux (a : Args) (items : List RawItem) :
    ∀ cat0 : Catalog, (dictKeys cat0).Nodup →
      (dictKeys (items.foldl (putResource a) cat0)).Nodup := by
  induction items with
  | nil => intro cat0 h; exact h
  | cons it rest ih =>
    intro cat0 h
    rw [List.foldl_cons]
    apply ih
    unfold putResource
    by_cases he : it.kind = "Event" ∧ ¬ a.showEvents
    · simpa [he]
    · simp only [he, if_false]
      exact nodup_dictKeys_dictSet _ _ _ h

/-- The keys of a built catalog are unique (Python dict keys). -/
theorem buildCatalog_nodup (a : Args) (items : List RawItem) :
    (dictKeys (buildCatalog a items)).Nodup :=
  buildCatalog_nodup_aux a items [] (by simp [dictKeys])

theorem buildCatalog_values_aux (a : Args) (items : List RawItem) :
    ∀ (cat0 : Catalog) (u : String) (r : Resource),
      dictGet (items.foldl (putResource a) cat0) u = some r →
      (∃ it ∈ items, it.uid = u ∧ r = normalizeItem a it ∧
        ¬ (it.kind = "Event" ∧ ¬ a.showEvents)) ∨ dictGet cat0 u = some r := by
  induction items with
  | nil => intro cat0 u r h; exact Or.inr h
  | cons it rest ih =>
    intro cat0 u r h
    rw [List.foldl_cons] at h
    rcases ih _ u r h with ⟨it', hm, he⟩ | hbase
    · exact Or.inl ⟨it', List.mem_cons_of_mem _ hm, he⟩
    · unfold putResource at hbase
      by_cases he : it.kind = "Event" ∧ ¬ a.showEvents
      · rw [if_pos he] at hbase
        exact Or.inr hbase
      · rw [if_neg he, dictGet_dictSet] at hbase
        by_cases hu : it.uid = u
        · rw [if_pos hu] at hbase
          cases hbase
          exact Or.inl ⟨it, List.mem_cons_self it rest, hu, rfl, he⟩
        · rw [if_neg hu] at hbase
          exact Or.inr hbase

/-- Every catalog entry comes from a fetched item that survived the
`Event` exclusion, normalized by the collection loop. -/
theorem buildCatalog_values {a : Args} {items : List RawItem} {u : String}
    {r : Resource} (h : dictGet (buildCatalog a items) u = some r) :
    ∃ it ∈ items, it.uid = u ∧ r = normalizeItem a it ∧
      ¬ (it.kind = "Event" ∧ ¬ a.showEvents) := by
  rcases buildCatalog_values_aux a items [] u r h with hx | hbase
  · exact hx
  · exact absurd hbase (by simp [dictGet])

/-- A catalog built with events hidden stores no `Event` resource, so
an `Event` in the catalog means `SHOW_EVENTS` was on. -/
theorem buildCatalog_event_showEvents {a : Args} {items : List RawItem}
    {u : String} {r : Resource} (h : dictGet (buildCatalog a items) u = some r)
    (hk : r.kind = "Event") : a.showEvents = true := by
  obtain ⟨it, _, _, hr, hcond⟩ := buildCatalog_values h
  subst hr
  have : it.kind = "Event" := hk
  rcases Bool.eq_false_or_eq_true a.showEvents with hb | hb
  · exact hb
  · exact absurd ⟨this, by simp [hb]⟩ hcond

/-! ### Grouping lemmas -/

theorem groupTest_not_skipped {se : Bool} {r : Resource}
    (hsk : ¬ (r.kind = "Event" ∧ ¬ se)) :
    (! (decide (r.kind = "Event") && ! se)) = true := by
  rcases Bool.eq_false_or_eq_true se with hb | hb
  · subst hb
    simp
  · subst hb
    have : ¬ r.kind = "Event" := fun hc => hsk ⟨hc, by simp⟩
    simp [this]

theorem kindStep_fold_getD (se : Bool) (cat : Catalog) :
    ∀ (us : List String) (g0 : Dict (List String)) (k : String),
      (dictGet (us.foldl (kindStep se cat) g0) k).getD [] =
        (dictGet g0 k).getD [] ++ us.filter (groupTest se cat k) := by
  intro us
  induction us with
  | nil => intro g0 k; simp
  | cons u rest ih =>
    intro g0 k
    rw [List.foldl_cons, List.filter_cons]
    cases hu : dictGet cat u with
    | none =>
      have ht : groupTest se cat k u = false := by simp [groupTest, hu]
      have hst : kindStep se cat g0 u = g0 := by unfold kindStep; rw [hu]
      rw [ht, hst, ih]
      simp
    | some r =>
      by_cases hsk : r.kind = "Event" ∧ ¬ se
      · have hst : kindStep se cat g0 u = g0 := by
          unfold kindStep
          rw [hu]
          exact if_pos hsk
        have ht : groupTest se cat k u = false := by
          unfold groupTest
          rw [hu]
          obtain ⟨h1, h2⟩ := hsk
          have hse : se = false := by
            rcases Bool.eq_false_or_eq_true se with hb | hb
            · exact absurd (by simp [hb]) h2
            · exact hb
          simp [h1, hse]
        rw [ht, hst, ih]
        simp
      · have hst : kindStep se cat g0 u = dictAppend g0 r.kind u := by
          unfold kindStep
          rw [hu]
          exact if_neg hsk
        have ht : groupTest se cat k u = decide (r.kind = k) := by
          unfold groupTest
          rw [hu]
          dsimp only
          rw [groupTest_not_skipped hsk]
          simp
        rw [ht, hst, ih]
        by_cases hk : r.kind = k
        · subst hk
          rw [adjGet_dictAppend, if_pos rfl]
          simp [List.append_assoc]
        · rw [adjGet_dictAppend, if_neg hk]
          simp [hk]

theorem kind_groups_getD (se : Bool) (cat : Catalog) (k : String) :
    (dictGet (kind_groups se cat) k).getD [] =
      (top_level cat).filter (groupTest se cat k) := by
  unfold kind_groups
  rw [kindStep_fold_getD]
  simp [dictGet]

theorem mem_kindStep_fold_keys (se : Bool) (cat : Catalog) :
    ∀ (us : List String) (g0 : Dict (List String)) (k : String),
      k ∈ dictKeys (us.foldl (kindStep se cat) g0) ↔
        k ∈ dictKeys g0 ∨ ∃ u ∈ us, groupTest se cat k u = true := by
  intro us
  induction us with
  | nil => intro g0 k; simp
  | cons u rest ih =>
    intro g0 k
    rw [List.foldl_cons, ih]
    cases hu : dictGet cat u with
    | none =>
      have ht : groupTest se cat k u = false := by simp [groupTest, hu]
      have hst : kindStep se cat g0 u = g0 := by unfold kindStep; rw [hu]
      rw [hst]
      simp [ht]
    | some r =>
      by_cases hsk : r.kind = "Event" ∧ ¬ se
      · have hst : kindStep se cat g0 u = g0 := by
          unfold kindStep
          rw [hu]
          exact if_pos hsk
        have ht : groupTest se cat k u = false := by
          unfold groupTest
          rw [hu]
          obtain ⟨h1, h2⟩ := hsk
          have hse : se = false := by
            rcases Bool.eq_false_or_eq_true se with hb | hb
            · exact absurd (by simp [hb]) h2
            · exact hb
          simp [h1, hse]
        rw [hst]
        simp [ht]
      · have hst : kindStep se cat g0 u = dictAppend g0 r.kind u := by
          unfold kindStep
          rw [hu]
          exact if_neg hsk
        have ht : groupTest se cat k u = decide (r.kind = k) := by
          unfold groupTest
          rw [hu]
          dsimp only
          rw [groupTest_not_skipped hsk]
          simp
        rw [hst, mem_dictKeys_dictAppend]
        by_cases hk : r.kind = k
        · subst hk
          simp [ht, or_assoc, or_comm, or_left_comm]
        · have hkk : k ≠ r.kind := fun he => hk he.symm
          simp [ht, hk, hkk]

theorem mem_kind_groups_keys (se : Bool) (cat : Catalog) (k : String) :
    k ∈ dictKeys (kind_groups se cat) ↔
      ∃ u ∈ top_level cat, groupTest se cat k u = true := by
  unfold kind_groups
  rw [mem_kindStep_fold_keys]
  simp [dictKeys]

theorem kindStep_fold_nodup (se : Bool) (cat : Catalog) :
    ∀ (us : List String) (g0 : Dict (List String)),
      (dictKeys g0).Nodup → (dictKeys (us.foldl (kindStep se cat) g0)).Nodup := by
  intro us
  induction us with
  | nil => intro g0 h; exact h
  | cons u rest ih =>
    intro g0 h
    rw [List.foldl_cons]
    apply ih
    unfold kindStep
    cases hu : dictGet cat u with
    | none => exact h
    | some r =>
      by_cases hsk : r.kind = "Event" ∧ ¬ se
      · simpa [hsk]
      · dsimp only
        rw [if_neg hsk]
        exact nodup_dictKeys_dictAppend _ _ _ h

theorem kind_groups_keys_nodup (se : Bool) (cat : Catalog) :
    (dictKeys (kind_groups se cat)).Nodup :=
  kindStep_fold_nodup se cat (top_level cat) [] (by simp [dictKeys])

/-- No key of `kind_groups` is a skipped `Event` kind: the grouping loop
never appends under one. -/
theorem kind_groups_no_skipped_event (se : Bool) (cat : Catalog) (k : String)
    (h : k ∈ dictKeys (kind_groups se cat)) : ¬ (k = "Event" ∧ ¬ se) := by
  rintro ⟨rfl, hns⟩
  obtain ⟨u, _, ht⟩ := (mem_kind_groups_keys se cat "Event").mp h
  unfold groupTest at ht
  cases hu : dictGet cat u with
  | none => rw [hu] at ht; exact Bool.false_ne_true ht
  | some r =>
    rw [hu] at ht
    have hse : se = false := by
      rcases Bool.eq_false_or_eq_true se with hb | hb
      · exact absurd (by simp [hb]) hns
      · exact hb
    subst hse
    simp at ht

/-! ### Synthesis decomposition -/

theorem synthesize_components (a : Args) :
    ∀ (gs : List (String × List String)) (st0 : SynthState),
      (∀ g ∈ gs, ¬ (g.1 = "Event" ∧ ¬ a.showEvents)) →
      gs.foldl (synthStep a) st0 =
        { pseudo_nodes :=
            gs.foldl (fun pn g => dictSet pn g.1 (pseudoUidOf g.1)) st0.pseudo_nodes
          cat := gs.foldl (fun c g => dictSet c (pseudoUidOf g.1) (pseudoRes a g.1)) st0.cat
          adj := gs.foldl (fun ad g =>
            g.2.foldl (fun ad2 c => dictAppend ad2 (pseudoUidOf g.1) c) ad) st0.adj } := by
  intro gs
  induction gs with
  | nil => intro st0 _; rfl
  | cons g rest ih =>
    intro st0 hsk
    rw [List.foldl_cons, List.foldl_cons, List.foldl_cons, List.foldl_cons]
    rw [ih _ (fun g' hg' => hsk g' (List.mem_cons_of_mem g hg'))]
    unfold synthStep
    rw [if_neg (hsk g (List.mem_cons_self g rest))]

theorem adjGet_dictAppend_adj (d : Adj) (k k' : String) (x : String) :
    adjGet (dictAppend d k x) k' =
      if k = k' then adjGet d k ++ [x] else adjGet d k' :=
  adjGet_dictAppend d k k' x

theorem foldl_dictAppend_const_key (puid : String) :
    ∀ (cs : List String) (ad : Adj) (key : String),
      adjGet (cs.foldl (fun ad2 c => dictAppend ad2 puid c) ad) key =
        adjGet ad key ++ (if puid = key then cs else []) := by
  intro cs
  induction cs with
  | nil => intro ad key; simp
  | cons c rest ih =>
    intro ad key
    rw [List.foldl_cons, ih, adjGet_dictAppend_adj]
    by_cases h : puid = key
    · subst h
      simp [List.append_assoc]
    · simp [h]

theorem synth_adj_other_key :
    ∀ (gs : List (String × List String)) (ad0 : Adj) (key : String),
      (∀ g ∈ gs, pseudoUidOf g.1 ≠ key) →
      adjGet (gs.foldl (fun ad g =>
        g.2.foldl (fun ad2 c => dictAppend ad2 (pseudoUidOf g.1) c) ad) ad0) key =
        adjGet ad0 key := by
  intro gs
  induction gs with
  | nil => intro ad0 key _; rfl
  | cons g rest ih =>
    intro ad0 key h
    rw [List.foldl_cons, ih _ _ (fun g' hg' => h g' (List.mem_cons_of_mem g hg'))]
    rw [foldl_dictAppend_const_key]
    rw [if_neg (h g (List.mem_cons_self g rest))]
    simp

theorem synth_adj_pseudo_key :
    ∀ (gs : List (String × List String)) (ad0 : Adj) (g0 : String × List String),
      g0 ∈ gs → (gs.map (fun g => pseudoUidOf g.1)).Nodup →
      adjGet (gs.foldl (fun ad g =>
        g.2.foldl (fun ad2 c => dictAppend ad2 (pseudoUidOf g.1) c) ad) ad0)
        (pseudoUidOf g0.1) =
        adjGet ad0 (pseudoUidOf g0.1) ++ g0.2 := by
  intro gs
  induction gs with
  | nil => intro ad0 g0 h _; exact absurd h (by simp)
  | cons g rest ih =>
    intro ad0 g0 hm hnd
    rw [List.map_cons, List.nodup_cons] at hnd
    rcases List.mem_cons.mp hm with rfl | hm'
    · rw [List.foldl_cons]
      rw [synth_adj_other_key rest _ _ ?hother]
      · rw [foldl_dictAppend_const_key, if_pos rfl]
      case hother =>
        intro g' hg' he
        exact hnd.1 (he ▸ List.mem_map_of_mem (fun g => pseudoUidOf g.1) hg')
    · rw [List.foldl_cons, ih _ g0 hm' hnd.2]
      rw [foldl_dictAppend_const_key]
      have : pseudoUidOf g.1 ≠ pseudoUidOf g0.1 := by
        intro he
        exact hnd.1 (he ▸ List.mem_map_of_mem (fun g => pseudoUidOf g.1) hm')
      rw [if_neg this]
      simp

/-! ### Root identification -/

theorem isTopLevelRes_iff (cat : Catalog) (r : Resource) :
    isTopLevelRes cat r = true ↔
      (r.owners = [] ∨ ∃ o ∈ r.owners, dictGet cat o.uid = none) := by
  simp [isTopLevelRes, List.isEmpty_iff, List.any_eq_true, Option.isNone_iff_eq_none]

theorem mem_top_level_iff {cat : Catalog} (hn : (dictKeys cat).Nodup) (uid : String) :
    uid ∈ top_level cat ↔
      ∃ r, dictGet cat uid = some r ∧ isTopLevelRes cat r = true := by
  unfold top_level
  constructor
  · intro hm
    obtain ⟨p, hp, he⟩ := List.mem_map.mp hm
    obtain ⟨hpc, hP⟩ := List.mem_filter.mp hp
    obtain ⟨k, v⟩ := p
    cases he
    exact ⟨v, mem_dictGet_of_nodup hn hpc, hP⟩
  · rintro ⟨r, hr, hP⟩
    exact List.mem_map.mpr ⟨(uid, r),
      List.mem_filter.mpr ⟨dictGet_eq_some_mem hr, hP⟩, rfl⟩

/-- C2: a catalog entry is identified as top-level iff it has no owner
references, or at least one owner reference targets an identity that is
absent from the catalog; in particular a sole resolvable owner
disqualifies root status and one absent reference among several forces
it (lines 153-165 of the script). -/
theorem c2_root_iff_no_owner_or_absent_owner (cat : Catalog) (uid : String)
    (r : Resource) (hn : (dictKeys cat).Nodup) (h : dictGet cat uid = some r) :
    uid ∈ top_level cat ↔
      (r.owners = [] ∨ ∃ o ∈ r.owners, dictGet cat o.uid = none) := by
  rw [mem_top_level_iff hn]
  constructor
  · rintro ⟨r', hr', hP⟩
    rw [h] at hr'
    cases hr'
    exact (isTopLevelRes_iff cat r).mp hP
  · intro hd
    exact ⟨r, h, (isTopLevelRes_iff cat r).mpr hd⟩

/-- C2 witness: in the scenario catalog, `uid 2` (sole present owner) is
settled by the theorem's iff — its right side is false there. -/
theorem c2_witness :
    (dictGet (buildCatalog argsA itemsScenario) "2" = some resScenario2) ∧
      (("2" ∈ top_level (buildCatalog argsA itemsScenario)) ↔
        (resScenario2.owners = [] ∨
          ∃ o ∈ resScenario2.owners,
            dictGet (buildCatalog argsA itemsScenario) o.uid = none)) :=
  ⟨by decide, c2_root_iff_no_owner_or_absent_owner _ _ _ (by decide) (by decide)⟩

/-! ### C4: deterministic, restartable rendering -/

/-- C4: rendering is deterministic and restartable.  In this pure
embedding two runs on literally identical inputs coincide by
reflexivity; the substantive content is that rendering a second time —
on the adjacency index the first run mutated by its in-place sorts —
reproduces byte-identical lines (and the same visit sequence). -/
theorem c4_render_deterministic_restartable (cat : Catalog) (wei : Bool)
    (fuel : Nat) (tlk : List String) (adj adj1 : Adj) (lines vis : List String)
    (h : render cat wei fuel tlk adj = some (lines, vis, adj1)) :
    ∃ adj2, render cat wei fuel tlk adj1 = some (lines, vis, adj2) := by
  have hsim : adjSim cat adj adj1 := render_sim h
  have hc := @render_congr cat wei fuel tlk adj adj1 hsim
  rw [h] at hc
  cases h2 : render cat wei fuel tlk adj1 with
  | none =>
    rw [h2] at hc
    exact absurd hc (by simp [simOut])
  | some o =>
    obtain ⟨l2, v2, a2⟩ := o
    rw [h2] at hc
    obtain ⟨e1, e2, _⟩ := hc
    exact ⟨a2, by rw [← e1, ← e2]⟩

/-- C4 witness: re-rendering the two-root fixture on the mutated
adjacency index reproduces the identical lines. -/
theorem c4_witness :
    ∃ adj2, render (pipeline argsA itemsKba).1.cat false 3 (pipeline argsA itemsKba).2
      [("PSEUDO_K_NODE", ["u2", "u1"])] =
      some (["└── Ks", "    ├── K/a", "    └── K/b"], ["PSEUDO_K_NODE", "u2", "u1"], adj2) :=
  c4_render_deterministic_restartable (pipeline argsA itemsKba).1.cat false 3
    (pipeline argsA itemsKba).2 (pipeline argsA itemsKba).1.adj
    [("PSEUDO_K_NODE", ["u2", "u1"])]
    ["└── Ks", "    ├── K/a", "    └── K/b"] ["PSEUDO_K_NODE", "u2", "u1"] (by decide)

/-! ### C5: the adjacency index under rendering -/

/-- C5 counterexample: rendering the two-root fixture reorders the
synthetic node's child list in place (`["u1", "u2"]` becomes
`["u2", "u1"]`), so the adjacency index is not left unchanged. -/
theorem c5_counterexample :
    (pipeline argsA itemsKba).1.adj = [("PSEUDO_K_NODE", ["u1", "u2"])] ∧
      render (pipeline argsA itemsKba).1.cat false 3 (pipeline argsA itemsKba).2
          (pipeline argsA itemsKba).1.adj =
        some (["└── Ks", "    ├── K/a", "    └── K/b"], ["PSEUDO_K_NODE", "u2", "u1"],
          [("PSEUDO_K_NODE", ["u2", "u1"])]) := by
  constructor
  · decide
  · decide

/-- C5 amended: rendering preserves every owner-to-children entry up to
the in-place sort it performs: each child list keeps exactly the same
elements (a permutation), and its sorted view is unchanged. -/
theorem c5_amended_adjacency_preserved_up_to_sorting (cat : Catalog) (wei : Bool)
    (fuel : Nat) (tlk : List String) (adj adj' : Adj) (lines vis : List String)
    (h : render cat wei fuel tlk adj = some (lines, vis, adj')) :
    ∀ k, List.Perm (adjGet adj' k) (adjGet adj k) ∧
      sortChildren cat (adjGet adj' k) = sortChildren cat (adjGet adj k) := by
  have hs : adjSim cat adj adj' := render_sim h
  exact fun k => ⟨(adjSim_perm hs k).symm, (hs k).symm⟩

/-- C5 amended witness: the re-ordered entry of the fixture is a
permutation of the original with the same sorted view. -/
theorem c5_amended_witness :
    List.Perm (adjGet [("PSEUDO_K_NODE", ["u2", "u1"])] "PSEUDO_K_NODE")
        (adjGet (pipeline argsA itemsKba).1.adj "PSEUDO_K_NODE") ∧
      sortChildren (pipeline argsA itemsKba).1.cat
          (adjGet [("PSEUDO_K_NODE", ["u2", "u1"])] "PSEUDO_K_NODE") =
        sortChildren (pipeline argsA itemsKba).1.cat
          (adjGet (pipeline argsA itemsKba).1.adj "PSEUDO_K_NODE") :=
  c5_amended_adjacency_preserved_up_to_sorting (pipeline argsA itemsKba).1.cat false 3
    (pipeline argsA itemsKba).2 (pipeline argsA itemsKba).1.adj
    [("PSEUDO_K_NODE", ["u2", "u1"])]
    ["└── Ks", "    ├── K/a", "    └── K/b"] ["PSEUDO_K_NODE", "u2", "u1"] (by decide)
    "PSEUDO_K_NODE"

/-! ### C3: group-node synthesis -/

theorem groupTest_iff_of_event_policy {a : Args} {cat : Catalog}
    (hev : ∀ u r, dictGet cat u = some r → r.kind = "Event" → a.showEvents = true)
    (u k : String) :
    groupTest a.showEvents cat k u = true ↔
      ∃ r, dictGet cat u = some r ∧ r.kind = k := by
  unfold groupTest
  cases hu : dictGet cat u with
  | none => simp
  | some r =>
    dsimp only
    rw [Bool.and_eq_true]
    constructor
    · rintro ⟨h1, _⟩
      exact ⟨r, rfl, of_decide_eq_true h1⟩
    · rintro ⟨r', hr', hk⟩
      injection hr' with he
      subst he
      refine ⟨decide_eq_true hk, ?_⟩
      by_cases hevk : r.kind = "Event"
      · rw [hev u r hu hevk]
        simp
      · simp [hevk]

/-- C3 counterexample: at synthesis time the synthetic node's children
sit in catalog order (`["u1", "u2"]`), not in `(kind, name)` key order
(which sorts to `["u2", "u1"]` since `a < b`); sorting happens only at
render time. -/
theorem c3_counterexample :
    adjGet (pipeline argsA itemsKba).1.adj "PSEUDO_K_NODE" = ["u1", "u2"] ∧
      sortChildren (pipeline argsA itemsKba).1.cat ["u1", "u2"] = ["u2", "u1"] := by
  constructor
  · decide
  · decide

/-- C3 amended: synthesis creates exactly one synthetic node per
distinct kind present among the top-level resources; each synthetic
resource has empty name and no owner references; its children in the
adjacency index are exactly the top-level uids of that kind in catalog
order (sorted by the `(kind, name)` key only later, at render time);
and the new top-level list is exactly the synthetic identities.  The
freshness/injectivity hypotheses rule out synthetic identities
colliding with real ones and case-colliding kind names. -/
theorem c3_amended_group_synthesis (a : Args) (cat : Catalog) (adj : Adj)
    (hev : ∀ u r, dictGet cat u = some r → r.kind = "Event" → a.showEvents = true)
    (hfreshCat : ∀ k ∈ dictKeys (kind_groups a.showEvents cat),
      pseudoUidOf k ∉ dictKeys cat)
    (hfreshAdj : ∀ k ∈ dictKeys (kind_groups a.showEvents cat),
      adjGet adj (pseudoUidOf k) = [])
    (hinj : ∀ k1 ∈ dictKeys (kind_groups a.showEvents cat),
      ∀ k2 ∈ dictKeys (kind_groups a.showEvents cat),
      pseudoUidOf k1 = pseudoUidOf k2 → k1 = k2) :
    (synthesize a cat adj).pseudo_nodes =
        (kind_groups a.showEvents cat).map (fun g => (g.1, pseudoUidOf g.1)) ∧
      (∀ k, k ∈ dictKeys (kind_groups a.showEvents cat) ↔
        ∃ u ∈ top_level cat, ∃ r, dictGet cat u = some r ∧ r.kind = k) ∧
      (dictKeys (kind_groups a.showEvents cat)).Nodup ∧
      (∀ k ∈ dictKeys (kind_groups a.showEvents cat),
        dictGet (synthesize a cat adj).cat (pseudoUidOf k) = some (pseudoRes a k) ∧
          (pseudoRes a k).name = "" ∧ (pseudoRes a k).owners = []) ∧
      (∀ k l, dictGet (kind_groups a.showEvents cat) k = some l →
        adjGet (synthesize a cat adj).adj (pseudoUidOf k) = l ∧
          l = (top_level cat).filter (groupTest a.showEvents cat k)) ∧
      (synthesize a cat adj).pseudo_nodes.map Prod.snd =
        (dictKeys (kind_groups a.showEvents cat)).map pseudoUidOf := by
  have hsk : ∀ g ∈ kind_groups a.showEvents cat, ¬ (g.1 = "Event" ∧ ¬ a.showEvents) := by
    intro g hg
    exact kind_groups_no_skipped_event a.showEvents cat g.1
      (List.mem_map_of_mem Prod.fst hg)
  have hknd := kind_groups_keys_nodup a.showEvents cat
  have hkndf : ((kind_groups a.showEvents cat).map (fun g => g.1)).Nodup := hknd
  have hmapnd : ((kind_groups a.showEvents cat).map (fun g => pseudoUidOf g.1)).Nodup := by
    have he : (kind_groups a.showEvents cat).map (fun g => pseudoUidOf g.1) =
        (dictKeys (kind_groups a.showEvents cat)).map pseudoUidOf := by
      simp [dictKeys, List.map_map]
    rw [he]
    exact hknd.map_on (fun x hx y hy hxy => hinj x hx y hy hxy)
  have hcomp := synthesize_components a (kind_groups a.showEvents cat) ⟨[], cat, adj⟩ hsk
  have hpn : (synthesize a cat adj).pseudo_nodes =
      (kind_groups a.showEvents cat).map (fun g => (g.1, pseudoUidOf g.1)) := by
    unfold synthesize
    rw [hcomp]
    have := foldl_dictSet_fresh (fun g : String × List String => g.1)
      (fun g => pseudoUidOf g.1) (kind_groups a.showEvents cat) []
      (by simp [dictKeys]) hkndf
    simpa using this
  have hcat : (synthesize a cat adj).cat =
      cat ++ (kind_groups a.showEvents cat).map
        (fun g => (pseudoUidOf g.1, pseudoRes a g.1)) := by
    unfold synthesize
    rw [hcomp]
    exact foldl_dictSet_fresh (fun g : String × List String => pseudoUidOf g.1)
      (fun g => pseudoRes a g.1) (kind_groups a.showEvents cat) cat
      (fun g hg => hfreshCat g.1 (List.mem_map_of_mem Prod.fst hg)) hmapnd
  refine ⟨hpn, ?_, hknd, ?_, ?_, ?_⟩
  · intro k
    rw [mem_kind_groups_keys]
    constructor
    · rintro ⟨u, hu, ht⟩
      obtain ⟨r, hr, hk⟩ := (groupTest_iff_of_event_policy hev u k).mp ht
      exact ⟨u, hu, r, hr, hk⟩
    · rintro ⟨u, hu, r, hr, hk⟩
      exact ⟨u, hu, (groupTest_iff_of_event_policy hev u k).mpr ⟨r, hr, hk⟩⟩
  · intro k hk
    refine ⟨?_, rfl, rfl⟩
    rw [hcat, dictGet_append]
    rw [(dictGet_eq_none_iff cat (pseudoUidOf k)).mpr (hfreshCat k hk)]
    obtain ⟨g, hg, hfst⟩ := List.mem_map.mp hk
    have hmem : (pseudoUidOf k, pseudoRes a k) ∈
        (kind_groups a.showEvents cat).map
          (fun g => (pseudoUidOf g.1, pseudoRes a g.1)) := by
      subst hfst
      exact List.mem_map.mpr ⟨g, hg, rfl⟩
    have hkeys : (dictKeys ((kind_groups a.showEvents cat).map
        (fun g => (pseudoUidOf g.1, pseudoRes a g.1)))).Nodup := by
      unfold dictKeys
      rw [List.map_map]
      exact hmapnd
    exact mem_dictGet_of_nodup hkeys hmem
  · intro k l hl
    have hkmem : k ∈ dictKeys (kind_groups a.showEvents cat) :=
      (mem_dictKeys_iff _ k).mpr (by simp [hl])
    have hfil : l = (top_level cat).filter (groupTest a.showEvents cat k) := by
      have := kind_groups_getD a.showEvents cat k
      rw [hl] at this
      exact this
    refine ⟨?_, hfil⟩
    have hadj : (synthesize a cat adj).adj =
        (kind_groups a.showEvents cat).foldl (fun ad g =>
          g.2.foldl (fun ad2 c => dictAppend ad2 (pseudoUidOf g.1) c) ad) adj := by
      unfold synthesize
      rw [hcomp]
    rw [hadj]
    have := synth_adj_pseudo_key (kind_groups a.showEvents cat) adj (k, l)
      (dictGet_eq_some_mem hl) hmapnd
    rw [this, hfreshAdj k hkmem]
    rfl
  · rw [hpn]
    simp [dictKeys, List.map_map]

/-- C3 amended witness: in the two-root fixture, the group of kind `K`
has exactly the children `["u1", "u2"]` in catalog order. -/
theorem c3_amended_witness :
    adjGet (synthesize argsA (buildCatalog argsA itemsKba)
        (owner_to_children (buildCatalog argsA itemsKba))).adj
      (pseudoUidOf "K") = ["u1", "u2"] ∧
      ["u1", "u2"] = (top_level (buildCatalog argsA itemsKba)).filter
        (groupTest argsA.showEvents (buildCatalog argsA itemsKba) "K") :=
  (c3_amended_group_synthesis argsA (buildCatalog argsA itemsKba)
    (owner_to_children (buildCatalog argsA itemsKba))
    (fun u r h hk => buildCatalog_event_showEvents h hk)
    (by decide) (by decide) (by decide)).2.2.2.2.1 "K" ["u1", "u2"] (by decide)

/-! ### Fingerprint deduplication lemmas -/

theorem processContainers_mono :
    ∀ (cs : List Container) (st st' : ImgState) (outs : List ContainerOut),
      processContainers st cs = (st', outs) →
      ∀ img tok, dictGet st.1 img = some tok → dictGet st'.1 img = some tok := by
  intro cs
  induction cs with
  | nil =>
    intro st st' outs h img tok hm
    rw [processContainers] at h
    cases h
    exact hm
  | cons c rest ih =>
    intro st st' outs h img tok hm
    obtain ⟨ai, cnt⟩ := st
    rw [processContainers] at h
    by_cases hp : (dictGet ai c.image).isSome
    · rw [if_pos hp] at h
      dsimp only at h
      cases hrec : processContainers (ai, cnt) rest with
      | mk st2 outs2 =>
        rw [hrec] at h
        cases h
        exact ih _ _ _ hrec img tok hm
    · rw [if_neg hp] at h
      dsimp only at h
      cases hrec : processContainers
          (dictSet ai c.image ("image_ref_" ++ toString (cnt + 1)), cnt + 1) rest with
      | mk st2 outs2 =>
        rw [hrec] at h
        cases h
        apply ih _ _ _ hrec img tok
        rw [dictGet_dictSet]
        by_cases he : c.image = img
        · subst he
          rw [hm] at hp
          exact absurd rfl hp
        · rw [if_neg he]
          exact hm

theorem processContainers_lookup :
    ∀ (cs : List Container) (st st' : ImgState) (outs : List ContainerOut),
      processContainers st cs = (st', outs) →
      ∀ c ∈ cs, (dictGet st'.1 c.image).isSome := by
  intro cs
  induction cs with
  | nil => intro st st' outs h c hc; exact absurd hc (by simp)
  | cons c0 rest ih =>
    intro st st' outs h c hc
    obtain ⟨ai, cnt⟩ := st
    rw [processContainers] at h
    by_cases hp : (dictGet ai c0.image).isSome
    · rw [if_pos hp] at h
      dsimp only at h
      cases hrec : processContainers (ai, cnt) rest with
      | mk st2 outs2 =>
        rw [hrec] at h
        cases h
        rcases List.mem_cons.mp hc with rfl | hm
        · obtain ⟨tok, htok⟩ := Option.isSome_iff_exists.mp hp
          rw [processContainers_mono rest _ _ _ hrec c.image tok htok]
          rfl
        · exact ih _ _ _ hrec c hm
    · rw [if_neg hp] at h
      dsimp only at h
      cases hrec : processContainers
          (dictSet ai c0.image ("image_ref_" ++ toString (cnt + 1)), cnt + 1) rest with
      | mk st2 outs2 =>
        rw [hrec] at h
        cases h
        rcases List.mem_cons.mp hc with rfl | hm
        · have : dictGet (dictSet ai c.image ("image_ref_" ++ toString (cnt + 1)))
              c.image = some ("image_ref_" ++ toString (cnt + 1)) := by
            rw [dictGet_dictSet, if_pos rfl]
          rw [processContainers_mono rest _ _ _ hrec c.image _ this]
          rfl
        · exact ih _ _ _ hrec c hm

theorem processContainers_outs :
    ∀ (cs : List Container) (st st' : ImgState) (outs : List ContainerOut),
      processContainers st cs = (st', outs) →
      outs = cs.map (fun c =>
        { name := c.name, imageRef := (dictGet st'.1 c.image).getD "" }) := by
  intro cs
  induction cs with
  | nil =>
    intro st st' outs h
    rw [processContainers] at h
    cases h
    rfl
  | cons c rest ih =>
    intro st st' outs h
    obtain ⟨ai, cnt⟩ := st
    rw [processContainers] at h
    by_cases hp : (dictGet ai c.image).isSome
    · rw [if_pos hp] at h
      dsimp only at h
      cases hrec : processContainers (ai, cnt) rest with
      | mk st2 outs2 =>
        rw [hrec] at h
        cases h
        rw [List.map_cons, ← ih _ _ _ hrec]
        obtain ⟨tok, htok⟩ := Option.isSome_iff_exists.mp hp
        rw [processContainers_mono rest _ _ _ hrec c.image tok htok, htok]
    · rw [if_neg hp] at h
      dsimp only at h
      cases hrec : processContainers
          (dictSet ai c.image ("image_ref_" ++ toString (cnt + 1)), cnt + 1) rest with
      | mk st2 outs2 =>
        rw [hrec] at h
        cases h
        rw [List.map_cons, ← ih _ _ _ hrec]
        have htok : dictGet (dictSet ai c.image ("image_ref_" ++ toString (cnt + 1)))
            c.image = some ("image_ref_" ++ toString (cnt + 1)) := by
          rw [dictGet_dictSet, if_pos rfl]
        rw [processContainers_mono rest _ _ _ hrec c.image _ htok, htok]

theorem firstSeenAux_congr :
    ∀ (xs : List String) (s1 s2 : List String), (∀ x, x ∈ s1 ↔ x ∈ s2) →
      firstSeenAux s1 xs = firstSeenAux s2 xs := by
  intro xs
  induction xs with
  | nil => intro s1 s2 _; rfl
  | cons x rest ih =>
    intro s1 s2 hm
    rw [firstSeenAux, firstSeenAux]
    by_cases h1 : x ∈ s1
    · rw [if_pos h1, if_pos ((hm x).mp h1)]
      exact ih s1 s2 hm
    · rw [if_neg h1, if_neg (fun h2 => h1 ((hm x).mpr h2))]
      rw [ih (x :: s1) (x :: s2) (by intro y; simp [hm y])]

theorem mem_firstSeenAux :
    ∀ (xs : List String) (seen : List String) (y : String),
      y ∈ firstSeenAux seen xs ↔ y ∈ xs ∧ y ∉ seen := by
  intro xs
  induction xs with
  | nil => intro seen y; simp [firstSeenAux]
  | cons x rest ih =>
    intro seen y
    rw [firstSeenAux]
    by_cases h1 : x ∈ seen
    · rw [if_pos h1, ih]
      simp only [List.mem_cons]
      constructor
      · rintro ⟨hy, hn⟩
        exact ⟨Or.inr hy, hn⟩
      · rintro ⟨hy | hy, hn⟩
        · subst hy
          exact absurd h1 hn
        · exact ⟨hy, hn⟩
    · rw [if_neg h1]
      simp only [List.mem_cons, ih]
      constructor
      · rintro (rfl | ⟨hy, hn⟩)
        · exact ⟨Or.inl rfl, h1⟩
        · simp at hn
          exact ⟨Or.inr hy, hn.2⟩
      · rintro ⟨hy | hy, hn⟩
        · exact Or.inl hy
        · by_cases he : y = x
          · exact Or.inl he
          · exact Or.inr ⟨hy, by simp [he, hn]⟩

theorem firstSeenAux_append :
    ∀ (xs ys seen seen' : List String),
      (∀ z, z ∈ seen' ↔ z ∈ seen ∨ z ∈ xs) →
      firstSeenAux seen (xs ++ ys) =
        firstSeenAux seen xs ++ firstSeenAux seen' ys := by
  intro xs
  induction xs with
  | nil =>
    intro ys seen seen' hm
    rw [List.nil_append, firstSeenAux]
    exact firstSeenAux_congr ys seen' seen (fun z => by simp [hm z]) |>.symm
  | cons x rest ih =>
    intro ys seen seen' hm
    rw [List.cons_append, firstSeenAux, firstSeenAux]
    by_cases h1 : x ∈ seen
    · rw [if_pos h1, if_pos h1]
      refine ih ys seen seen' (fun z => ?_)
      rw [hm z]
      constructor
      · rintro (hz | hz)
        · exact Or.inl hz
        · rcases List.mem_cons.mp hz with rfl | hz2
          · exact Or.inl h1
          · exact Or.inr hz2
      · rintro (hz | hz)
        · exact Or.inl hz
        · exact Or.inr (List.mem_cons_of_mem x hz)
    · rw [if_neg h1, if_neg h1, List.cons_append]
      have hmm2 : ∀ z, z ∈ seen' ↔ z ∈ (x :: seen) ∨ z ∈ rest := by
        intro z
        rw [hm z]
        constructor
        · rintro (hz | hz)
          · exact Or.inl (List.mem_cons_of_mem x hz)
          · rcases List.mem_cons.mp hz with rfl | hz2
            · exact Or.inl (List.mem_cons_self z seen)
            · exact Or.inr hz2
        · rintro (hz | hz)
          · rcases List.mem_cons.mp hz with rfl | hz2
            · exact Or.inr (List.mem_cons_self z rest)
            · exact Or.inl hz2
          · exact Or.inr (List.mem_cons_of_mem x hz)
      rw [ih ys (x :: seen) seen' hmm2]

theorem firstSeenAux_nodup :
    ∀ (xs seen : List String), (firstSeenAux seen xs).Nodup := by
  intro xs
  induction xs with
  | nil => intro seen; exact List.nodup_nil
  | cons x rest ih =>
    intro seen
    rw [firstSeenAux]
    by_cases h1 : x ∈ seen
    · rw [if_pos h1]; exact ih seen
    · rw [if_neg h1]
      rw [List.nodup_cons]
      refine ⟨?_, ih (x :: seen)⟩
      rw [mem_firstSeenAux]
      rintro ⟨_, hn⟩
      exact hn (List.mem_cons_self x seen)

theorem tokenRange_succ (n : Nat) :
    tokenRange (n + 1) = tokenRange n ++ ["image_ref_" ++ toString (n + 1)] := by
  unfold tokenRange
  rw [List.range_succ, List.map_append]
  rfl

theorem processContainers_state :
    ∀ (cs : List Container) (st st' : ImgState) (outs : List ContainerOut),
      processContainers st cs = (st', outs) →
      (st'.1.map Prod.fst =
        st.1.map Prod.fst ++ firstSeenAux (st.1.map Prod.fst) (cs.map Container.image)) ∧
      (ImgInv st → ImgInv st') := by
  intro cs
  induction cs with
  | nil =>
    intro st st' outs h
    rw [processContainers] at h
    cases h
    exact ⟨by simp [firstSeenAux], id⟩
  | cons c rest ih =>
    intro st st' outs h
    obtain ⟨ai, cnt⟩ := st
    rw [processContainers] at h
    rw [List.map_cons, firstSeenAux]
    by_cases hp : (dictGet ai c.image).isSome
    · rw [if_pos hp] at h
      dsimp only at h
      cases hrec : processContainers (ai, cnt) rest with
      | mk st2 outs2 =>
        rw [hrec] at h
        cases h
        have hmem : c.image ∈ List.map Prod.fst (ai, cnt).1 :=
          (mem_dictKeys_iff ai c.image).mpr hp
        rw [if_pos hmem]
        exact ih _ _ _ hrec
    · rw [if_neg hp] at h
      dsimp only at h
      cases hrec : processContainers
          (dictSet ai c.image ("image_ref_" ++ toString (cnt + 1)), cnt + 1) rest with
      | mk st2 outs2 =>
        rw [hrec] at h
        cases h
        have hnmem : c.image ∉ List.map Prod.fst (ai, cnt).1 := by
          intro hx
          rw [← mem_dictKeys_iff ai c.image] at hp
          exact hp hx
        rw [if_neg hnmem]
        have hset : dictSet ai c.image ("image_ref_" ++ toString (cnt + 1)) =
            ai ++ [(c.image, "image_ref_" ++ toString (cnt + 1))] :=
          dictSet_append_fresh _ _ _ hnmem
        obtain ⟨ihk, ihi⟩ := ih _ _ _ hrec
        constructor
        · rw [ihk, hset, List.map_append, List.append_assoc]
          rw [firstSeenAux_congr (rest.map Container.image)
            (List.map Prod.fst ai ++ List.map Prod.fst [(c.image,
              "image_ref_" ++ toString (cnt + 1))])
            (c.image :: List.map Prod.fst ai) (fun z => by simp [or_comm])]
          simp
        · intro hinv
          apply ihi
          obtain ⟨h1, h2⟩ := hinv
          simp only at h1 h2
          constructor
          · rw [hset]
            simp [h1]
          · rw [hset, List.map_append, List.length_append]
            simp only [List.map_cons, List.map_nil, List.length_cons, List.length_nil]
            rw [h2, tokenRange_succ, h1]

theorem toDigitsCore_acc (b : Nat) :
    ∀ (f n : Nat) (acc : List Char),
      Nat.toDigitsCore b f n acc = Nat.toDigitsCore b f n [] ++ acc := by
  intro f
  induction f with
  | zero => intro n acc; rfl
  | succ f ih =>
    intro n acc
    rw [Nat.toDigitsCore, Nat.toDigitsCore]
    by_cases h : n / b = 0
    · simp [h]
    · rw [if_neg h, if_neg h, ih (n / b) [Nat.digitChar (n % b)],
        ih (n / b) (Nat.digitChar (n % b) :: acc)]
      rw [List.append_assoc]
      rfl

theorem valOfDigits_append_one (xs : List Char) (d : Char) :
    valOfDigits (xs ++ [d]) = valOfDigits xs * 10 + digitVal d := by
  induction xs with
  | nil => simp [valOfDigits]
  | cons c ys ih =>
    rw [List.cons_append, valOfDigits, valOfDigits, ih]
    rw [List.length_append]
    simp [pow_succ]
    ring

theorem digitVal_digitChar (m : Nat) (h : m < 10) :
    digitVal (Nat.digitChar m) = m := by
  interval_cases m <;> decide

theorem valOfDigits_toDigitsCore :
    ∀ (f n : Nat), n < 10 ^ f → valOfDigits (Nat.toDigitsCore 10 f n []) = n := by
  intro f
  induction f with
  | zero =>
    intro n h
    simp at h
    subst h
    rfl
  | succ f ih =>
    intro n h
    rw [Nat.toDigitsCore]
    by_cases h0 : n / 10 = 0
    · rw [if_pos h0]
      have hn : n < 10 := by omega
      rw [valOfDigits, valOfDigits, Nat.mod_eq_of_lt hn, digitVal_digitChar n hn]
      simp
    · rw [if_neg h0, toDigitsCore_acc, valOfDigits_append_one]
      have hdiv : n / 10 < 10 ^ f := by
        rw [pow_succ] at h
        omega
      rw [ih (n / 10) hdiv, digitVal_digitChar _ (Nat.mod_lt n (by norm_num))]
      omega

theorem natRepr_inj {m n : Nat} (h : Nat.repr m = Nat.repr n) : m = n := by
  unfold Nat.repr at h
  have hd : Nat.toDigits 10 m = Nat.toDigits 10 n := List.asString_inj.mp h
  unfold Nat.toDigits at hd
  have hbm : m < 10 ^ (m + 1) :=
    lt_trans (Nat.lt_succ_self m) (Nat.lt_pow_self (by norm_num) (m + 1))
  have hbn : n < 10 ^ (n + 1) :=
    lt_trans (Nat.lt_succ_self n) (Nat.lt_pow_self (by norm_num) (n + 1))
  have h1 := valOfDigits_toDigitsCore (m + 1) m hbm
  have h2 := valOfDigits_toDigitsCore (n + 1) n hbn
  rw [hd] at h1
  exact h1.symm.trans h2

theorem tokenString_inj (i j : Nat)
    (h : ("image_ref_" ++ toString (i + 1) : String) =
      "image_ref_" ++ toString (j + 1)) : i = j := by
  have hc := congrArg String.data h
  rw [String.data_append, String.data_append] at hc
  have hr : (toString (i + 1) : String) = toString (j + 1) :=
    String.ext (List.append_cancel_left hc)
  have := natRepr_inj (show Nat.repr (i + 1) = Nat.repr (j + 1) from hr)
  omega

theorem tokenRange_nodup (n : Nat) : (tokenRange n).Nodup :=
  (List.nodup_range n).map_on
    (fun i _ j _ hij => tokenString_inj i j hij)

theorem mkOut_congr {stA stB : ImgState} (s : Summary)
    (hsome : ∀ img ∈ summaryImages s, (dictGet stA.1 img).isSome)
    (hmono : ∀ img tok, dictGet stA.1 img = some tok → dictGet stB.1 img = some tok) :
    mkOut stA s = mkOut stB s := by
  unfold mkOut
  congr 1
  cases hc : s.containers with
  | none => rfl
  | some cs =>
    simp only [Option.map]
    congr 1
    refine List.map_congr_left (fun c hcm => ?_)
    have himg : c.image ∈ summaryImages s := by
      unfold summaryImages
      rw [hc]
      exact List.mem_map_of_mem Container.image hcm
    obtain ⟨tok, htok⟩ := Option.isSome_iff_exists.mp (hsome _ himg)
    rw [htok, hmono _ _ htok]

theorem mem_dictKeys_dictSet {α : Type} (d : Dict α) (k0 k : String) (v : α) :
    k ∈ dictKeys (dictSet d k0 v) ↔ k ∈ dictKeys d ∨ k = k0 := by
  rw [dictKeys_dictSet]
  by_cases h : (dictGet d k0).isSome
  · rw [if_pos h]
    constructor
    · exact Or.inl
    · rintro (hm | rfl)
      · exact hm
      · exact (mem_dictKeys_iff d k).mpr h
  · rw [if_neg h]
    simp [or_comm]

theorem process_resource_mono (oracle : Oracle) (st : ImgState) (r : Resource)
    (img tok : String) (h : dictGet st.1 img = some tok) :
    dictGet (process_resource oracle st r).1.1 img = some tok := by
  unfold process_resource
  dsimp only
  cases hc : (oracle r.kind r.name r.ns).containers with
  | none => exact h
  | some cs =>
    dsimp only
    cases hrec : processContainers st cs with
    | mk st' outs =>
      dsimp only
      exact processContainers_mono cs st st' outs hrec img tok h

theorem process_resource_state (oracle : Oracle) (st : ImgState) (r : Resource) :
    ((process_resource oracle st r).1.1.map Prod.fst =
      st.1.map Prod.fst ++ firstSeenAux (st.1.map Prod.fst)
        (summaryImages (oracle r.kind r.name r.ns))) ∧
    (ImgInv st → ImgInv (process_resource oracle st r).1) := by
  unfold process_resource summaryImages
  dsimp only
  cases hc : (oracle r.kind r.name r.ns).containers with
  | none => exact ⟨by simp [firstSeenAux], id⟩
  | some cs =>
    dsimp only
    cases hrec : processContainers st cs with
    | mk st' outs =>
      dsimp only
      exact processContainers_state cs st st' outs hrec

theorem process_resource_out (oracle : Oracle) (st : ImgState) (r : Resource) :
    (process_resource oracle st r).2 =
      mkOut (process_resource oracle st r).1 (oracle r.kind r.name r.ns) ∧
    (∀ img, img ∈ summaryImages (oracle r.kind r.name r.ns) →
      (dictGet (process_resource oracle st r).1.1 img).isSome) := by
  unfold process_resource mkOut summaryImages
  dsimp only
  cases hc : (oracle r.kind r.name r.ns).containers with
  | none => exact ⟨rfl, by simp⟩
  | some cs =>
    dsimp only
    cases hrec : processContainers st cs with
    | mk st' outs =>
      dsimp only
      constructor
      · rw [processContainers_outs cs st st' outs hrec]
        rfl
      · intro img himg
        simp only [List.mem_map] at himg
        obtain ⟨c, hc2, rfl⟩ := himg
        exact processContainers_lookup cs st st' outs hrec c hc2

/-- `buildDoc` written with explicit projections (structure eta). -/
theorem buildDoc_eq_foldl (oracle : Oracle) (cat : Catalog) (st0 : ImgState) :
    buildDoc oracle cat st0 =
      cat.foldl (fun acc p =>
        let q := process_resource oracle acc.1 p.2
        (q.1, dictSet acc.2 (p.2.kind ++ "/" ++ p.2.name) (DocVal.summary q.2)))
      (st0, []) := rfl

theorem docFold_mono (oracle : Oracle) :
    ∀ (cat : List (String × Resource)) (st0 : ImgState) (doc0 : Dict DocVal)
      (img tok : String), dictGet st0.1 img = some tok →
      dictGet (cat.foldl (fun acc p =>
        let q := process_resource oracle acc.1 p.2
        (q.1, dictSet acc.2 (p.2.kind ++ "/" ++ p.2.name) (DocVal.summary q.2)))
        (st0, doc0)).1.1 img = some tok := by
  intro cat
  induction cat with
  | nil => intro st0 doc0 img tok h; exact h
  | cons p rest ih =>
    intro st0 doc0 img tok h
    rw [List.foldl_cons]
    exact ih _ _ img tok (process_resource_mono oracle st0 p.2 img tok h)

theorem docFold_state (oracle : Oracle) :
    ∀ (cat : List (String × Resource)) (st0 : ImgState) (doc0 : Dict DocVal),
      ((cat.foldl (fun acc p =>
        let q := process_resource oracle acc.1 p.2
        (q.1, dictSet acc.2 (p.2.kind ++ "/" ++ p.2.name) (DocVal.summary q.2)))
        (st0, doc0)).1.1.map Prod.fst =
          st0.1.map Prod.fst ++ firstSeenAux (st0.1.map Prod.fst) (imagesOf oracle cat)) ∧
      (ImgInv st0 → ImgInv (cat.foldl (fun acc p =>
        let q := process_resource oracle acc.1 p.2
        (q.1, dictSet acc.2 (p.2.kind ++ "/" ++ p.2.name) (DocVal.summary q.2)))
        (st0, doc0)).1) := by
  intro cat
  induction cat with
  | nil =>
    intro st0 doc0
    exact ⟨by simp [imagesOf, firstSeenAux], id⟩
  | cons p rest ih =>
    intro st0 doc0
    rw [List.foldl_cons]
    dsimp only
    obtain ⟨hk1, hi1⟩ := process_resource_state oracle st0 p.2
    obtain ⟨hk2, hi2⟩ := ih (process_resource oracle st0 p.2).1
      (dictSet doc0 (p.2.kind ++ "/" ++ p.2.name)
        (DocVal.summary (process_resource oracle st0 p.2).2))
    constructor
    · rw [hk2, hk1, List.append_assoc]
      have hic : imagesOf oracle (p :: rest) =
          summaryImages (oracle p.2.kind p.2.name p.2.ns) ++ imagesOf oracle rest := rfl
      rw [hic]
      rw [firstSeenAux_append (summaryImages (oracle p.2.kind p.2.name p.2.ns))
        (imagesOf oracle rest) (st0.1.map Prod.fst)
        (st0.1.map Prod.fst ++ firstSeenAux (st0.1.map Prod.fst)
          (summaryImages (oracle p.2.kind p.2.name p.2.ns)))
        (fun z => by
          rw [List.mem_append, mem_firstSeenAux]
          constructor
          · rintro (hz | ⟨hz, _⟩)
            · exact Or.inl hz
            · exact Or.inr hz
          · rintro (hz | hz)
            · exact Or.inl hz
            · by_cases hs : z ∈ st0.1.map Prod.fst
              · exact Or.inl hs
              · exact Or.inr ⟨hz, hs⟩)]
    · exact fun h0 => hi2 (hi1 h0)

theorem docFold_entries (oracle : Oracle) :
    ∀ (cat : List (String × Resource)) (st0 : ImgState) (doc0 : Dict DocVal)
      (k : String) (v : DocVal),
      dictGet (cat.foldl (fun acc p =>
        let q := process_resource oracle acc.1 p.2
        (q.1, dictSet acc.2 (p.2.kind ++ "/" ++ p.2.name) (DocVal.summary q.2)))
        (st0, doc0)).2 k = some v →
      dictGet doc0 k = some v ∨
        ∃ p ∈ cat, k = p.2.kind ++ "/" ++ p.2.name ∧
          v = DocVal.summary (mkOut (cat.foldl (fun acc p =>
            let q := process_resource oracle acc.1 p.2
            (q.1, dictSet acc.2 (p.2.kind ++ "/" ++ p.2.name) (DocVal.summary q.2)))
            (st0, doc0)).1 (oracle p.2.kind p.2.name p.2.ns)) := by
  intro cat
  induction cat with
  | nil => intro st0 doc0 k v h; exact Or.inl h
  | cons p rest ih =>
    intro st0 doc0 k v h
    rw [List.foldl_cons] at h ⊢
    dsimp only at h ⊢
    rcases ih _ _ k v h with hbase | ⟨q, hq, hk, hv⟩
    · rw [dictGet_dictSet] at hbase
      by_cases hke : p.2.kind ++ "/" ++ p.2.name = k
      · rw [if_pos hke] at hbase
        injection hbase with hbase
        refine Or.inr ⟨p, List.mem_cons_self p rest, hke.symm, ?_⟩
        rw [← hbase]
        congr 1
        rw [(process_resource_out oracle st0 p.2).1]
        exact mkOut_congr (oracle p.2.kind p.2.name p.2.ns)
          (process_resource_out oracle st0 p.2).2
          (fun img tok htok => docFold_mono oracle rest _ _ img tok htok)
      · rw [if_neg hke] at hbase
        exact Or.inl hbase
    · exact Or.inr ⟨q, List.mem_cons_of_mem p hq, hk, hv⟩

theorem docFold_key_present (oracle : Oracle) :
    ∀ (cat : List (String × Resource)) (st0 : ImgState) (doc0 : Dict DocVal)
      (k : String), k ∈ dictKeys doc0 →
      k ∈ dictKeys (cat.foldl (fun acc p =>
        let q := process_resource oracle acc.1 p.2
        (q.1, dictSet acc.2 (p.2.kind ++ "/" ++ p.2.name) (DocVal.summary q.2)))
        (st0, doc0)).2 := by
  intro cat
  induction cat with
  | nil => intro st0 doc0 k h; exact h
  | cons p rest ih =>
    intro st0 doc0 k h
    rw [List.foldl_cons]
    dsimp only
    exact ih _ _ k ((mem_dictKeys_dictSet doc0 _ k _).mpr (Or.inl h))

theorem docFold_writes (oracle : Oracle) :
    ∀ (cat : List (String × Resource)) (st0 : ImgState) (doc0 : Dict DocVal)
      (p : String × Resource), p ∈ cat →
      (p.2.kind ++ "/" ++ p.2.name) ∈ dictKeys (cat.foldl (fun acc p =>
        let q := process_resource oracle acc.1 p.2
        (q.1, dictSet acc.2 (p.2.kind ++ "/" ++ p.2.name) (DocVal.summary q.2)))
        (st0, doc0)).2 := by
  intro cat
  induction cat with
  | nil => intro st0 doc0 p h; exact absurd h (by simp)
  | cons p0 rest ih =>
    intro st0 doc0 p h
    rw [List.foldl_cons]
    dsimp only
    rcases List.mem_cons.mp h with rfl | hm
    · exact docFold_key_present oracle rest _ _ _
        ((mem_dictKeys_dictSet doc0 _ _ _).mpr (Or.inr rfl))
    · exact ih _ _ p hm

theorem docFold_keys_shape (oracle : Oracle) :
    ∀ (cat : List (String × Resource)) (st0 : ImgState) (doc0 : Dict DocVal)
      (k : String),
      k ∈ dictKeys (cat.foldl (fun acc p =>
        let q := process_resource oracle acc.1 p.2
        (q.1, dictSet acc.2 (p.2.kind ++ "/" ++ p.2.name) (DocVal.summary q.2)))
        (st0, doc0)).2 →
      k ∈ dictKeys doc0 ∨ ∃ p ∈ cat, k = p.2.kind ++ "/" ++ p.2.name := by
  intro cat
  induction cat with
  | nil => intro st0 doc0 k h; exact Or.inl h
  | cons p rest ih =>
    intro st0 doc0 k h
    rw [List.foldl_cons] at h
    dsimp only at h
    rcases ih _ _ k h with hbase | ⟨q, hq, hk⟩
    · rcases (mem_dictKeys_dictSet doc0 _ k _).mp hbase with hm | rfl
      · exact Or.inl hm
      · exact Or.inr ⟨p, List.mem_cons_self p rest, rfl⟩
    · exact Or.inr ⟨q, List.mem_cons_of_mem p hq, hk⟩

theorem slashfree_append_inj :
    ∀ (xs1 xs2 ys1 ys2 : List Char), ('/' : Char) ∉ xs1 → ('/' : Char) ∉ xs2 →
      xs1 ++ '/' :: ys1 = xs2 ++ '/' :: ys2 → xs1 = xs2 ∧ ys1 = ys2 := by
  intro xs1
  induction xs1 with
  | nil =>
    intro xs2 ys1 ys2 _ h2 he
    cases xs2 with
    | nil =>
      rw [List.nil_append, List.nil_append] at he
      injection he with _ he2
      exact ⟨rfl, he2⟩
    | cons d rest2 =>
      rw [List.nil_append, List.cons_append] at he
      injection he with he1 _
      exact absurd (he1 ▸ List.mem_cons_self d rest2) h2
  | cons c rest1 ih =>
    intro xs2 ys1 ys2 h1 h2 he
    cases xs2 with
    | nil =>
      rw [List.nil_append, List.cons_append] at he
      injection he with he1 _
      exact absurd (he1 ▸ List.mem_cons_self c rest1) h1
    | cons d rest2 =>
      rw [List.cons_append, List.cons_append] at he
      injection he with he1 he2
      have hm1 : ('/' : Char) ∉ rest1 := fun hx => h1 (List.mem_cons_of_mem c hx)
      have hm2 : ('/' : Char) ∉ rest2 := fun hx => h2 (List.mem_cons_of_mem d hx)
      obtain ⟨ha, hb⟩ := ih rest2 ys1 ys2 hm1 hm2 he2
      exact ⟨by rw [he1, ha], hb⟩

theorem key_eq_of_slashfree {k1 n1 k2 n2 : String}
    (h1 : ('/' : Char) ∉ k1.data) (h2 : ('/' : Char) ∉ k2.data)
    (he : k1 ++ "/" ++ n1 = k2 ++ "/" ++ n2) : k1 = k2 ∧ n1 = n2 := by
  have hd := congrArg String.data he
  rw [String.data_append, String.data_append, String.data_append,
    String.data_append] at hd
  have hd2 : k1.data ++ '/' :: n1.data = k2.data ++ '/' :: n2.data := by
    simpa using hd
  obtain ⟨ha, hb⟩ := slashfree_append_inj _ _ _ _ h1 h2 hd2
  exact ⟨String.ext ha, String.ext hb⟩

theorem key_ne_imageMap {k n : String} (h : ('/' : Char) ∉ k.data) :
    k ++ "/" ++ n ≠ "_image_map" := by
  intro he
  have hd := congrArg String.data he
  rw [String.data_append, String.data_append] at hd
  have hsl : ('/' : Char) ∈ k.data ++ ("/" : String).data ++ n.data := by
    rw [show ("/" : String).data = ['/'] from rfl]
    simp
  rw [hd] at hsl
  exact absurd hsl (by decide)

theorem dictGet_finishDoc_imageMap (st : ImgState) (doc : Dict DocVal)
    (hno : "_image_map" ∉ dictKeys doc) :
    dictGet (finishDoc st doc) "_image_map" =
      if st.1.isEmpty then none
      else some (DocVal.imageMap (st.1.map (fun e => (e.2, e.1)))) := by
  unfold finishDoc
  by_cases h : st.1.isEmpty
  · rw [if_pos h, if_pos h]
    exact (dictGet_eq_none_iff doc _).mpr hno
  · rw [if_neg h, if_neg h, dictGet_dictSet, if_pos rfl]

theorem dictGet_finishDoc_other (st : ImgState) (doc : Dict DocVal) (k : String)
    (hk : k ≠ "_image_map") : dictGet (finishDoc st doc) k = dictGet doc k := by
  unfold finishDoc
  by_cases h : st.1.isEmpty
  · rw [if_pos h]
  · rw [if_neg h, dictGet_dictSet, if_neg (fun he => hk he.symm)]

theorem revMap_lookup {st : ImgState} (hinv : ImgInv st) {img tok : String}
    (h : dictGet st.1 img = some tok) :
    dictGet (st.1.map (fun e => (e.2, e.1))) tok = some img := by
  have hmem : (img, tok) ∈ st.1 := dictGet_eq_some_mem h
  have hmem2 : (tok, img) ∈ st.1.map (fun e => (e.2, e.1)) :=
    List.mem_map.mpr ⟨(img, tok), hmem, rfl⟩
  refine mem_dictGet_of_nodup ?_ hmem2
  unfold dictKeys
  rw [List.map_map]
  have he : (Prod.fst ∘ fun e : String × String => (e.2, e.1)) = Prod.snd := rfl
  rw [he, hinv.2]
  exact tokenRange_nodup _

theorem mem_imagesOf (oracle : Oracle) :
    ∀ (cat : List (String × Resource)) (img : String),
      img ∈ imagesOf oracle cat ↔
        ∃ p ∈ cat, img ∈ summaryImages (oracle p.2.kind p.2.name p.2.ns) := by
  intro cat
  induction cat with
  | nil => intro img; simp [imagesOf]
  | cons p rest ih =>
    intro img
    rw [imagesOf, List.mem_append, ih]
    constructor
    · rintro (hm | ⟨q, hq, hm⟩)
      · exact ⟨p, List.mem_cons_self p rest, hm⟩
      · exact ⟨q, List.mem_cons_of_mem p hq, hm⟩
    · rintro ⟨q, hq, hm⟩
      rcases List.mem_cons.mp hq with rfl | hq2
      · exact Or.inl hm
      · exact Or.inr ⟨q, hq2, hm⟩

theorem foldl_snd_ext {α β γ : Type}
    (g : (α × List γ) → β → (α × List γ))
    (hg : ∀ acc u, ∃ x, (g acc u).2 = acc.2 ++ x) :
    ∀ (us : List β) (acc : α × List γ), ∃ extra, (us.foldl g acc).2 = acc.2 ++ extra := by
  intro us
  induction us with
  | nil => intro acc; exact ⟨[], by simp⟩
  | cons u rest ih =>
    intro acc
    rw [List.foldl_cons]
    obtain ⟨x, hx⟩ := hg acc u
    obtain ⟨extra, hex⟩ := ih (g acc u)
    exact ⟨x ++ extra, by rw [hex, hx, List.append_assoc]⟩

/-! ### C6: image deduplication in fingerprint extraction -/

/-- The first full document pass records, for every catalog entry, a
summary under the key `kind ++ "/" ++ name`, computed from the external
summary with images replaced by their final tokens. -/
theorem firstDoc_entry (oracle : Oracle) (cat : Catalog) (ns0 : String)
    (hns : ∀ p ∈ cat, p.2.ns = ns0)
    (hslash : ∀ p ∈ cat, ('/' : Char) ∉ p.2.kind.data) :
    ∀ p ∈ cat, dictGet (firstDoc oracle cat) (p.2.kind ++ "/" ++ p.2.name) =
      some (DocVal.summary (mkOut (firstDocState oracle cat)
        (oracle p.2.kind p.2.name ns0))) := by
  have hfd : firstDocState oracle cat =
      (cat.foldl (fun acc p =>
        let q := process_resource oracle acc.1 p.2
        (q.1, dictSet acc.2 (p.2.kind ++ "/" ++ p.2.name) (DocVal.summary q.2)))
        ((([], 0) : ImgState), [])).1 := by
    unfold firstDocState
    rw [buildDoc_eq_foldl]
  have hdocf : firstDoc oracle cat =
      finishDoc (firstDocState oracle cat)
        (cat.foldl (fun acc p =>
          let q := process_resource oracle acc.1 p.2
          (q.1, dictSet acc.2 (p.2.kind ++ "/" ++ p.2.name) (DocVal.summary q.2)))
          ((([], 0) : ImgState), [])).2 := by
    unfold firstDoc
    rw [buildDoc_eq_foldl]
  intro p hp
  have hw := docFold_writes oracle cat ([], 0) [] p hp
  obtain ⟨v, hv⟩ := Option.isSome_iff_exists.mp ((mem_dictKeys_iff _ _).mp hw)
  rcases docFold_entries oracle cat ([], 0) [] _ v hv with hb | ⟨q, hq, hkeq, hveq⟩
  · exact absurd hb (by simp [dictGet])
  · obtain ⟨hk1, hk2⟩ := key_eq_of_slashfree (hslash p hp) (hslash q hq) hkeq
    rw [hdocf, dictGet_finishDoc_other _ _ _ (key_ne_imageMap (hslash p hp)), hv,
      hveq, ← hfd]
    rw [← hk1, ← hk2, hns q hq]

/-- With at least one root-kind instance in the namespace,
`gather_fingerprint` writes the first artifact with the first full
document pass, named after that instance. -/
theorem gather_head (rootKind : String) (oracle : Oracle) (cat : Catalog)
    (ns : String) {u : String} {us : List String}
    (hce : (cat.filter (fun p => p.2.kind = rootKind ∧ p.2.ns = ns)).map
      Prod.fst = u :: us) :
    ∃ docs, gatherFingerprint rootKind oracle cat ns =
      (((dictGet cat u).map Resource.name).getD "" ++ "-state.json",
        firstDoc oracle cat) :: docs := by
  unfold gatherFingerprint
  rw [hce]
  rw [if_neg (by simp)]
  rw [List.foldl_cons]
  obtain ⟨extra, hex⟩ := foldl_snd_ext (gatherStep oracle cat)
    (fun acc v => ⟨[(((dictGet cat v).map Resource.name).getD "" ++ "-state.json",
      finishDoc (buildDoc oracle cat acc.1).1 (buildDoc oracle cat acc.1).2)],
      rfl⟩) us _
  refine ⟨extra, ?_⟩
  rw [hex]
  rfl

/-- C6: during one fingerprint extraction call (formalized on the first
document pass, which starts from the empty dedup state), (1) the
distinct image strings are recorded in first-seen processing order;
(2) their tokens are exactly `image_ref_1 … image_ref_n`, sequential in
that order; (3) every resource's document entry replaces each image
by the token of that image string — so equal strings across resources
share one token; (4) `_image_map` is present iff an image was seen and
is the reverse mapping; (5) the reverse mapping sends every minted
token back to its original string; (6) no token is unused: each minted
token appears as some `imageRef` in the document; (7) that document is
the artifact the script writes for the first root-kind instance.  The
hypotheses record two script invariants: every catalog entry carries
the single run namespace (line 136) and kind names contain no slash. -/
theorem c6_image_dedup (rootKind : String) (oracle : Oracle) (cat : Catalog)
    (ns0 : String) (hns : ∀ p ∈ cat, p.2.ns = ns0)
    (hslash : ∀ p ∈ cat, ('/' : Char) ∉ p.2.kind.data) :
    ((firstDocState oracle cat).1.map Prod.fst =
        firstSeenAux [] (imagesOf oracle cat)) ∧
      ((firstDocState oracle cat).1.map Prod.snd =
          tokenRange (firstDocState oracle cat).1.length ∧
        (firstDocState oracle cat).2 = (firstDocState oracle cat).1.length) ∧
      (∀ p ∈ cat, dictGet (firstDoc oracle cat) (p.2.kind ++ "/" ++ p.2.name) =
        some (DocVal.summary (mkOut (firstDocState oracle cat)
          (oracle p.2.kind p.2.name ns0)))) ∧
      (dictGet (firstDoc oracle cat) "_image_map" =
        if (firstDocState oracle cat).1.isEmpty then none
        else some (DocVal.imageMap
          ((firstDocState oracle cat).1.map (fun e => (e.2, e.1))))) ∧
      (∀ img tok, dictGet (firstDocState oracle cat).1 img = some tok →
        dictGet ((firstDocState oracle cat).1.map (fun e => (e.2, e.1))) tok =
          some img) ∧
      (∀ e ∈ (firstDocState oracle cat).1, ∃ p ∈ cat, ∃ sOut csOut o,
        dictGet (firstDoc oracle cat) (p.2.kind ++ "/" ++ p.2.name) =
            some (DocVal.summary sOut) ∧
          sOut.containers = some csOut ∧ o ∈ csOut ∧ o.imageRef = e.2) ∧
      (∀ u us, (cat.filter (fun p => p.2.kind = rootKind ∧ p.2.ns = ns0)).map
          Prod.fst = u :: us →
        ∃ docs, gatherFingerprint rootKind oracle cat ns0 =
          (((dictGet cat u).map Resource.name).getD "" ++ "-state.json",
            firstDoc oracle cat) :: docs) := by
  have hfd : firstDocState oracle cat =
      (cat.foldl (fun acc p =>
        let q := process_resource oracle acc.1 p.2
        (q.1, dictSet acc.2 (p.2.kind ++ "/" ++ p.2.name) (DocVal.summary q.2)))
        ((([], 0) : ImgState), [])).1 := by
    unfold firstDocState
    rw [buildDoc_eq_foldl]
  have hstate := docFold_state oracle cat ([], 0) []
  have hkeys1 : (firstDocState oracle cat).1.map Prod.fst =
      firstSeenAux [] (imagesOf oracle cat) := by
    rw [hfd]
    simpa using hstate.1
  have hinv : ImgInv (firstDocState oracle cat) := by
    rw [hfd]
    exact hstate.2 ⟨rfl, rfl⟩
  have hnodupkeys : ((firstDocState oracle cat).1.map Prod.fst).Nodup := by
    rw [hkeys1]
    exact firstSeenAux_nodup _ _
  have hno : "_image_map" ∉
      dictKeys (cat.foldl (fun acc p =>
        let q := process_resource oracle acc.1 p.2
        (q.1, dictSet acc.2 (p.2.kind ++ "/" ++ p.2.name) (DocVal.summary q.2)))
        ((([], 0) : ImgState), [])).2 := by
    intro hmem
    rcases docFold_keys_shape oracle cat ([], 0) [] _ hmem with hb | ⟨p, hp, heq⟩
    · exact absurd hb (by simp [dictKeys])
    · exact key_ne_imageMap (hslash p hp) heq.symm
  have hdocf : firstDoc oracle cat =
      finishDoc (firstDocState oracle cat)
        (cat.foldl (fun acc p =>
          let q := process_resource oracle acc.1 p.2
          (q.1, dictSet acc.2 (p.2.kind ++ "/" ++ p.2.name) (DocVal.summary q.2)))
          ((([], 0) : ImgState), [])).2 := by
    unfold firstDoc
    rw [buildDoc_eq_foldl]
  have hentry := firstDoc_entry oracle cat ns0 hns hslash
  refine ⟨hkeys1, ⟨hinv.2, hinv.1⟩, hentry, ?_, ?_, ?_, ?_⟩
  · rw [hdocf]
    exact dictGet_finishDoc_imageMap _ _ hno
  · intro img tok h
    exact revMap_lookup hinv h
  · intro e he
    have himgmem : e.1 ∈ (firstDocState oracle cat).1.map Prod.fst :=
      List.mem_map.mpr ⟨e, he, rfl⟩
    rw [hkeys1, mem_firstSeenAux] at himgmem
    obtain ⟨p, hp, himg⟩ := (mem_imagesOf oracle cat e.1).mp himgmem.1
    rw [hns p hp] at himg
    refine ⟨p, hp, mkOut (firstDocState oracle cat) (oracle p.2.kind p.2.name ns0),
      ?_⟩
    unfold summaryImages at himg
    cases hc : (oracle p.2.kind p.2.name ns0).containers with
    | none => rw [hc] at himg; exact absurd himg (by simp)
    | some cs =>
      rw [hc] at himg
      obtain ⟨c, hcm, hcimg⟩ := List.mem_map.mp himg
      refine ⟨cs.map (fun c => ⟨c.name,
        (dictGet (firstDocState oracle cat).1 c.image).getD ""⟩), ?_⟩
      refine ⟨⟨c.name, (dictGet (firstDocState oracle cat).1 c.image).getD ""⟩,
        hentry p hp, ?_, List.mem_map_of_mem _ hcm, ?_⟩
      · unfold mkOut
        rw [hc]
        rfl
      · have hget : dictGet (firstDocState oracle cat).1 e.1 = some e.2 :=
          mem_dictGet_of_nodup hnodupkeys he
        rw [hcimg, hget]
        rfl
  · intro u us hce
    exact gather_head rootKind oracle cat ns0 hce

/-- C6 witness: on the fingerprint fixture (one `ClusterExtension`,
two pods sharing one image string), the first-seen key list is the
first-seen dedup of the processed image stream — and concretely one
single token is minted for the shared image. -/
theorem c6_witness :
    ((firstDocState oracleImg (buildCatalog argsA itemsFp)).1.map Prod.fst =
        firstSeenAux [] (imagesOf oracleImg (buildCatalog argsA itemsFp))) ∧
      (firstDocState oracleImg (buildCatalog argsA itemsFp)).1 =
        [("img.example/x:1", "image_ref_1")] :=
  ⟨(c6_image_dedup "ClusterExtension" oracleImg (buildCatalog argsA itemsFp)
      "ns" (by decide) (by decide)).1, by decide⟩

/-! ### C7: empty results are non-fatal -/

/-- C7: when no resource of the designated root kind exists in the
namespace, fingerprint extraction returns the empty list (no error);
and for an empty catalog the rendering loop emits no lines and
fingerprint extraction returns empty for any root kind. -/
theorem c7_empty_results (a : Args) (fuel : Nat) (rootKind ns : String)
    (oracle : Oracle) (cat : Catalog)
    (h : ∀ p ∈ cat, ¬ (p.2.kind = rootKind ∧ p.2.ns = ns)) :
    gatherFingerprint rootKind oracle cat ns = [] ∧
      render (pipeline a []).1.cat a.withEventInfo fuel (pipeline a []).2
        (pipeline a []).1.adj = some ([], [], []) ∧
      (∀ rk os nsx, gatherFingerprint rk os (pipeline a []).1.cat nsx = []) := by
  refine ⟨?_, rfl, fun rk os nsx => rfl⟩
  unfold gatherFingerprint
  have hfe : List.filter (fun p => decide (p.2.kind = rootKind ∧ p.2.ns = ns))
      cat = [] := by
    rw [List.filter_eq_nil_iff]
    intro p hp
    simpa using h p hp
  rw [hfe]
  rfl

/-- C7 witness: the scenario catalog holds no `ClusterExtension`, so
the script-level fingerprint path returns empty. -/
theorem c7_witness :
    gatherFingerprint "ClusterExtension" oracleEmpty
      (buildCatalog argsA itemsScenario) "ns" = [] :=
  (c7_empty_results argsA 1 "ClusterExtension" "ns" oracleEmpty
    (buildCatalog argsA itemsScenario) (by decide)).1

/-! ### C8: excluded kinds are invisible -/

/-- C8: with events excluded (`SHOW_EVENTS = false`), no `Event`
resource is ever stored in the catalog — so every downstream stage,
which reads only the catalog, never sees one — and a resource whose
owner reference targets an identity carried only by excluded `Event`
items resolves as absent, promoting that resource to top level. -/
theorem c8_excluded_kind_dropped_and_children_promoted (a : Args)
    (items : List RawItem) (hse : a.showEvents = false) :
    (∀ u r, dictGet (buildCatalog a items) u = some r → r.kind ≠ "Event") ∧
      (∀ p ∈ buildCatalog a items, ∀ o ∈ p.2.owners,
        (∀ it ∈ items, it.uid = o.uid → it.kind = "Event") →
        p.1 ∈ top_level (buildCatalog a items)) := by
  have hnoev : ∀ u r, dictGet (buildCatalog a items) u = some r → r.kind ≠ "Event" := by
    intro u r h hk
    have := buildCatalog_event_showEvents h hk
    rw [hse] at this
    exact Bool.false_ne_true this
  refine ⟨hnoev, ?_⟩
  intro p hp o ho hall
  have hnod := buildCatalog_nodup a items
  obtain ⟨k, v⟩ := p
  rw [mem_top_level_iff hnod]
  refine ⟨v, mem_dictGet_of_nodup hnod hp, ?_⟩
  rw [isTopLevelRes_iff]
  right
  refine ⟨o, ho, ?_⟩
  cases hg : dictGet (buildCatalog a items) o.uid with
  | none => rfl
  | some r' =>
    exfalso
    obtain ⟨it, hit, huid, hr, hcond⟩ := buildCatalog_values hg
    exact hnoev o.uid r' hg (by rw [hr]; exact hall it hit huid)

/-- C8 witness: concrete discharge on a catalog where `e1` is an
excluded event owning `d1`: `d1` is promoted to top level. -/
theorem c8_witness :
    "d1" ∈ top_level (buildCatalog argsNoEv itemsEvOwner) :=
  (c8_excluded_kind_dropped_and_children_promoted argsNoEv itemsEvOwner rfl).2
    ("d1", resD1) (by decide) ⟨"Event", "ev", "e1"⟩ (by decide) (by decide)

/-! ### C9: termination of the traversal -/

theorem dictGet_mem {α : Type} {d : Dict α} {k : String} {v : α}
    (h : dictGet d k = some v) : (k, v) ∈ d := by
  induction d with
  | nil => simp [dictGet] at h
  | cons p rest ih =>
    obtain ⟨k0, v0⟩ := p
    rw [dictGet] at h
    by_cases he : k0 = k
    · rw [if_pos he] at h
      injection h with h2
      subst h2
      subst he
      exact List.mem_cons_self _ _
    · rw [if_neg he] at h
      exact List.mem_cons_of_mem _ (ih h)

theorem star_of_steps {adj : Adj} {u v : String} (h : Steps adj u v) :
    Star adj u v := by
  induction h with
  | single h1 => exact Star.head h1 (Star.refl _)
  | cons h1 _ ih => exact Star.head h1 ih

/-- A node with a path to a cycle has a child with a path to a cycle. -/
theorem pathToCycle_child {adj : Adj} {u : String} (h : PathToCycle adj u) :
    ∃ c ∈ adjGet adj u, PathToCycle adj c := by
  obtain ⟨v, hs, hc⟩ := h
  cases hs with
  | refl =>
    cases hc with
    | single h1 => exact ⟨u, h1, u, Star.refl u, Steps.single h1⟩
    | cons h1 h2 => exact ⟨_, h1, u, star_of_steps h2, Steps.cons h1 h2⟩
  | head h1 hs2 => exact ⟨_, h1, v, hs2, hc⟩

/-- The sibling loop succeeds when every step succeeds on every
`adjSim`-related dictionary. -/
theorem forestFold_total {cat : Catalog} {adj0 : Adj}
    (step : String → String → Bool → Adj → Option (List String × List String × Adj))
    (hsim : ∀ c p l a out, step c p l a = some out → adjSim cat a out.2.2) :
    ∀ (cs : List String),
      (∀ c ∈ cs, ∀ p l ad, adjSim cat ad adj0 → ∃ out, step c p l ad = some out) →
      ∀ (p : String) (adj : Adj), adjSim cat adj adj0 →
        ∃ out, forestFold step cs p adj = some out := by
  intro cs
  induction cs with
  | nil => intro _ p adj _; exact ⟨([], [], adj), rfl⟩
  | cons c rest ih =>
    intro h p adj hadj
    obtain ⟨o1, ho1⟩ := h c (List.mem_cons_self c rest) p rest.isEmpty adj hadj
    obtain ⟨l1, v1, a1⟩ := o1
    have hs1 : adjSim cat a1 adj0 :=
      adjSim_trans (adjSim_symm (hsim c p rest.isEmpty adj _ ho1)) hadj
    obtain ⟨o2, ho2⟩ := ih (fun c2 hc2 => h c2 (List.mem_cons_of_mem c hc2)) p a1 hs1
    obtain ⟨l2, v2, a2⟩ := o2
    refine ⟨(l1 ++ l2, v1 ++ v2, a2), ?_⟩
    rw [forestFold, ho1]
    dsimp only
    rw [ho2]

/-- `print_tree` succeeds once the fuel exceeds the rank of a ranking
function that decreases along reachable edges, provided every reachable
uid resolves in the catalog. -/
theorem print_tree_total (cat : Catalog) (wei : Bool) (adj0 : Adj)
    (roots : List String) (rank : String → Nat)
    (hmem : ∀ u, Reach adj0 roots u → (dictGet cat u).isSome = true)
    (hdec : ∀ u, Reach adj0 roots u → ∀ v ∈ adjGet adj0 u, rank v < rank u) :
    ∀ (fuel : Nat) (u pre : String) (isLast : Bool) (adj : Adj),
      Reach adj0 roots u → rank u < fuel → adjSim cat adj adj0 →
      ∃ out, print_tree cat wei fuel u pre isLast adj = some out := by
  intro fuel
  induction fuel with
  | zero =>
    intro u pre isLast adj _ hlt _
    exact absurd hlt (Nat.not_lt_zero _)
  | succ f ih =>
    intro u pre isLast adj hr hlt hadj
    obtain ⟨r, hrg⟩ := Option.isSome_iff_exists.mp (hmem u hr)
    have hcs : ∀ c ∈ sortChildren cat (adjGet adj u),
        Reach adj0 roots c ∧ rank c < f := by
      intro c hc
      have hc1 : c ∈ adjGet adj u := (mem_sortChildren cat _ c).mp hc
      have hc0 : c ∈ adjGet adj0 u := (adjSim_perm hadj u).mem_iff.mp hc1
      refine ⟨Reach.step hr hc0, ?_⟩
      have := hdec u hr c hc0
      omega
    have hsorted : adjSim cat (adjSortAt cat adj u) adj0 :=
      adjSim_trans (adjSim_symm (adjSim_adjSortAt cat adj u)) hadj
    obtain ⟨o, ho⟩ := forestFold_total
      (fun c p l ad => print_tree cat wei f c p l ad)
      (fun c p l a out hout => print_tree_sim cat wei f c p l a out hout)
      (sortChildren cat (adjGet adj u))
      (fun c hc p l ad had => ih c p l ad (hcs c hc).1 (hcs c hc).2 had)
      (childIndent pre isLast) (adjSortAt cat adj u) hsorted
    obtain ⟨ls, vs, adj2⟩ := o
    refine ⟨(nodeLine r pre isLast ::
      (messageLines wei r (childIndent pre isLast) ++ ls), u :: vs, adj2), ?_⟩
    rw [print_tree_succ, hrg]
    dsimp only
    rw [ho]

/-- The sibling loop aborts when one sibling aborts on every
`adjSim`-related dictionary. -/
theorem forestFold_none_of_mem {cat : Catalog} {adj0 : Adj}
    (step : String → String → Bool → Adj → Option (List String × List String × Adj))
    (hsim : ∀ c p l a out, step c p l a = some out → adjSim cat a out.2.2)
    (c0 : String) (hbad : ∀ p l ad, adjSim cat ad adj0 → step c0 p l ad = none) :
    ∀ (cs : List String), c0 ∈ cs → ∀ (p : String) (adj : Adj),
      adjSim cat adj adj0 → forestFold step cs p adj = none := by
  intro cs
  induction cs with
  | nil => intro h; exact absurd h (by simp)
  | cons c rest ih =>
    intro hmem p adj hadj
    rw [forestFold]
    rcases List.mem_cons.mp hmem with rfl | hrest
    · rw [hbad p rest.isEmpty adj hadj]
    · cases h1 : step c p rest.isEmpty adj with
      | none => rfl
      | some o1 =>
        obtain ⟨l1, v1, a1⟩ := o1
        have hs1 : adjSim cat a1 adj0 :=
          adjSim_trans (adjSim_symm (hsim c p rest.isEmpty adj _ h1)) hadj
        dsimp only
        rw [ih hrest p a1 hs1]

/-- When a uid has a path to an adjacency cycle, `print_tree` exhausts
every recursion budget: the call never returns. -/
theorem print_tree_diverges (cat : Catalog) (wei : Bool) (adj0 : Adj) :
    ∀ (fuel : Nat) (u pre : String) (isLast : Bool) (adj : Adj),
      adjSim cat adj adj0 → PathToCycle adj0 u →
      print_tree cat wei fuel u pre isLast adj = none := by
  intro fuel
  induction fuel with
  | zero => intro u pre isLast adj _ _; exact print_tree_zero cat wei u pre isLast adj
  | succ f ih =>
    intro u pre isLast adj hadj hptc
    rw [print_tree_succ]
    cases hrg : dictGet cat u with
    | none => rfl
    | some r =>
      obtain ⟨c, hc0, hcptc⟩ := pathToCycle_child hptc
      have hcmem : c ∈ sortChildren cat (adjGet adj u) :=
        (mem_sortChildren cat _ c).mpr ((adjSim_perm hadj u).mem_iff.mpr hc0)
      have hsorted : adjSim cat (adjSortAt cat adj u) adj0 :=
        adjSim_trans (adjSim_symm (adjSim_adjSortAt cat adj u)) hadj
      have hff := forestFold_none_of_mem
        (fun c2 p l ad => print_tree cat wei f c2 p l ad)
        (fun c2 p l a out hout => print_tree_sim cat wei f c2 p l a out hout)
        c (fun p l ad had => ih c p l ad had hcptc)
        (sortChildren cat (adjGet adj u)) hcmem
        (childIndent pre isLast) (adjSortAt cat adj u) hsorted
      dsimp only
      rw [hff]

/-- Reachable uids resolve in the catalog as soon as the roots and all
recorded children do (a decidable certificate for the witness). -/
theorem dictGet_isSome_of_reach {cat : Catalog} {adj : Adj} {roots : List String}
    (h1 : ∀ r ∈ roots, (dictGet cat r).isSome = true)
    (h2 : ∀ p ∈ adj, ∀ v ∈ p.2, (dictGet cat v).isSome = true) :
    ∀ u, Reach adj roots u → (dictGet cat u).isSome = true := by
  intro u hr
  cases hr with
  | root h => exact h1 _ h
  | step hrv hm =>
    rename_i v
    cases hg : dictGet adj v with
    | none => simp [adjGet, hg] at hm
    | some l =>
      have hm2 : u ∈ l := by simpa [adjGet, hg] using hm
      exact h2 (v, l) (dictGet_mem hg) u hm2

/-- A globally edge-decreasing ranking certificate rules out any cycle,
reachable or not (a decidable certificate for the witness). -/
theorem no_cycle_of_rank {adj : Adj} {roots : List String} {rank : String → Nat}
    (h : ∀ p ∈ adj, ∀ v ∈ p.2, rank v < rank p.1) :
    ¬∃ u, Reach adj roots u ∧ Steps adj u u := by
  have hedge : ∀ u v : String, v ∈ adjGet adj u → rank v < rank u := by
    intro u v hv
    cases hg : dictGet adj u with
    | none => simp [adjGet, hg] at hv
    | some l =>
      have hv2 : v ∈ l := by simpa [adjGet, hg] using hv
      exact h (u, l) (dictGet_mem hg) v hv2
  have hsteps : ∀ u v : String, Steps adj u v → rank v < rank u := by
    intro u v hs
    induction hs with
    | single h1 => exact hedge _ _ h1
    | cons h1 _ ih => exact lt_trans ih (hedge _ _ h1)
  rintro ⟨u, _, hc⟩
  exact lt_irrefl _ (hsteps u u hc)

/-- Absence of a reachable cycle yields a ranking function decreasing
along reachable edges, bounded by the (finite) node universe. -/
theorem rank_exists_of_no_cycle {adj : Adj} {roots : List String}
    (hnc : ¬∃ u, Reach adj roots u ∧ Steps adj u u) :
    ∃ (rank : String → Nat) (B : Nat),
      (∀ u, Reach adj roots u → ∀ v ∈ adjGet adj u, rank v < rank u) ∧
      ∀ u, rank u < B := by
  classical
  refine ⟨fun u => (((roots ++ (adj.map Prod.snd).flatten).toFinset.filter
      (fun v => Steps adj u v)).card),
    (roots ++ (adj.map Prod.snd).flatten).toFinset.card + 1, ?_, ?_⟩
  · intro u hu v hv
    have hSmem : ∀ w z : String, z ∈ adjGet adj w →
        z ∈ (roots ++ (adj.map Prod.snd).flatten).toFinset := by
      intro w z hz
      cases hg : dictGet adj w with
      | none => simp [adjGet, hg] at hz
      | some l =>
        have hz2 : z ∈ l := by simpa [adjGet, hg] using hz
        rw [List.mem_toFinset, List.mem_append]
        exact Or.inr (List.mem_flatten.mpr
          ⟨l, List.mem_map.mpr ⟨(w, l), dictGet_mem hg, rfl⟩, hz2⟩)
    apply Finset.card_lt_card
    rw [Finset.ssubset_iff_of_subset]
    · exact ⟨v, Finset.mem_filter.mpr ⟨hSmem u v hv, Steps.single hv⟩,
        fun hvf => hnc ⟨v, Reach.step hu hv, (Finset.mem_filter.mp hvf).2⟩⟩
    · intro w hw
      rw [Finset.mem_filter] at hw ⊢
      exact ⟨hw.1, Steps.cons hv hw.2⟩
  · intro u
    exact Nat.lt_succ_of_le (Finset.card_filter_le
      (roots ++ (adj.map Prod.snd).flatten).toFinset (fun v => Steps adj u v))

/-- C9: for a traversal whose reachable uids all resolve in the
catalog, if no adjacency cycle is reachable from the root list then
some recursion budget makes the rendering loop return a (finite) line
list — the Python call, which has no budget, terminates; and if some
root has a path to a cycle, every budget is exhausted — the Python
call never returns. -/
theorem c9_termination_iff_no_reachable_cycle (cat : Catalog) (wei : Bool)
    (adj : Adj) (roots : List String)
    (hmem : ∀ u, Reach adj roots u → (dictGet cat u).isSome = true) :
    ((¬∃ u, Reach adj roots u ∧ Steps adj u u) →
      ∃ fuel out, render cat wei fuel roots adj = some out) ∧
      (∀ r ∈ roots, PathToCycle adj r →
        ∀ fuel, render cat wei fuel roots adj = none) := by
  constructor
  · intro hnc
    obtain ⟨rank, B, hdec, hbound⟩ := rank_exists_of_no_cycle hnc
    obtain ⟨out, hout⟩ := forestFold_total
      (fun c p l ad => print_tree cat wei B c p l ad)
      (fun c p l a o ho => print_tree_sim cat wei B c p l a o ho)
      roots
      (fun c hc p l ad had => print_tree_total cat wei adj roots rank hmem hdec
        B c p l ad (Reach.root hc) (hbound c) had)
      "" adj (adjSim_refl cat adj)
    exact ⟨B, out, hout⟩
  · intro r hr hptc fuel
    exact forestFold_none_of_mem
      (fun c p l ad => print_tree cat wei fuel c p l ad)
      (fun c p l a o ho => print_tree_sim cat wei fuel c p l a o ho)
      r (fun p l ad had => print_tree_diverges cat wei adj fuel r p l ad had hptc)
      roots hr "" adj (adjSim_refl cat adj)

/-- C9 witness: the acyclic scenario pipeline renders at some budget,
while the pipeline with a reachable two-node cycle (`c1` ↔ `c2` below
root `r0`) yields no output at any budget (shown at budget 9). -/
theorem c9_witness :
    (∃ fuel out, render (pipeline argsA itemsScenario).1.cat true fuel
        (pipeline argsA itemsScenario).2 (pipeline argsA itemsScenario).1.adj =
          some out) ∧
      render (pipeline argsA itemsCycle).1.cat true 9
        (pipeline argsA itemsCycle).2 (pipeline argsA itemsCycle).1.adj =
          none := by
  constructor
  · exact (c9_termination_iff_no_reachable_cycle
      (pipeline argsA itemsScenario).1.cat true
      (pipeline argsA itemsScenario).1.adj (pipeline argsA itemsScenario).2
      (dictGet_isSome_of_reach (by decide) (by decide))).1
      (@no_cycle_of_rank (pipeline argsA itemsScenario).1.adj
        (pipeline argsA itemsScenario).2
        (fun u => if u = "2" ∨ u = "3" then 0 else if u = "1" then 1 else 2)
        (by decide))
  · have hstar : Star (pipeline argsA itemsCycle).1.adj (pseudoUidOf "R") "c1" :=
      @Star.head (pipeline argsA itemsCycle).1.adj (pseudoUidOf "R") "r0" "c1"
        (by decide)
        (@Star.head (pipeline argsA itemsCycle).1.adj "r0" "c1" "c1"
          (by decide) (Star.refl "c1"))
    have hcyc : Steps (pipeline argsA itemsCycle).1.adj "c1" "c1" :=
      @Steps.cons (pipeline argsA itemsCycle).1.adj "c1" "c2" "c1"
        (by decide) (Steps.single (by decide))
    exact (c9_termination_iff_no_reachable_cycle
      (pipeline argsA itemsCycle).1.cat true
      (pipeline argsA itemsCycle).1.adj (pipeline argsA itemsCycle).2
      (dictGet_isSome_of_reach (by decide) (by decide))).2
      (pseudoUidOf "R") (by decide) ⟨"c1", hstar, hcyc⟩ 9

/-! ### C1: counting visits of each resource in the traversal -/

theorem count_eq_ite_of_nodup {l : List String} (hn : l.Nodup) (a : String) :
    l.count a = if a ∈ l then 1 else 0 := by
  induction l with
  | nil => simp
  | cons b t ih =>
    rw [List.nodup_cons] at hn
    rw [List.count_cons, ih hn.2]
    by_cases hba : b = a
    · subst hba
      simp [hn.1]
    · have hab : a ≠ b := fun he => hba he.symm
      by_cases hat : a ∈ t <;> simp [hat, hab, hba]

theorem sum_map_add_distrib {α : Type} (l : List α) (f g : α → Nat) :
    (l.map (fun c => f c + g c)).sum = (l.map f).sum + (l.map g).sum := by
  induction l with
  | nil => rfl
  | cons c t ih =>
    rw [List.map_cons, List.map_cons, List.map_cons, List.sum_cons, List.sum_cons,
      List.sum_cons, ih]
    omega

theorem sum_map_count (l : List String) (x : String) :
    (l.map (fun c => if c = x then 1 else 0)).sum = l.count x := by
  induction l with
  | nil => rfl
  | cons c t ih =>
    rw [List.map_cons, List.sum_cons, ih, List.count_cons]
    by_cases h : c = x
    · subst h
      simp
      omega
    · have hxc : ¬ (c == x) = true := by simpa using h
      simp [h, hxc]

theorem map_eq_of_mem {α β : Type} {l : List α} {f g : α → β}
    (h : ∀ a ∈ l, f a = g a) : l.map f = l.map g := by
  induction l with
  | nil => rfl
  | cons c t ih =>
    rw [List.map_cons, List.map_cons, h c (List.mem_cons_self c t),
      ih (fun a ha => h a (List.mem_cons_of_mem c ha))]

theorem visitCount_zero (adj : Adj) (p x : String) : visitCount adj 0 p x = 0 := rfl

theorem visitCount_succ (adj : Adj) (fuel : Nat) (p x : String) :
    visitCount adj (fuel + 1) p x =
      (if p = x then 1 else 0) +
        ((adjGet adj p).map (fun c => visitCount adj fuel c x)).sum := rfl

/-- The visit sequence of the sibling loop counts `x` as the sum of the
per-sibling counts, for any step whose counts are governed by `g`. -/
theorem forestFold_count {cat : Catalog} {adj0 : Adj} {x : String} {g : String → Nat}
    (step : String → String → Bool → Adj → Option (List String × List String × Adj))
    (hsim : ∀ c p l a out, step c p l a = some out → adjSim cat a out.2.2) :
    ∀ (cs : List String),
      (∀ c ∈ cs, ∀ p l a out, adjSim cat a adj0 → step c p l a = some out →
        out.2.1.count x = g c) →
      ∀ (p : String) (adj : Adj) out, adjSim cat adj adj0 →
        forestFold step cs p adj = some out →
        out.2.1.count x = (cs.map g).sum := by
  intro cs
  induction cs with
  | nil =>
    intro _ p adj out _ h
    simp [forestFold] at h
    cases h
    simp
  | cons c rest ih =>
    intro hcnt p adj out hadj h
    rw [forestFold] at h
    cases h1 : step c p rest.isEmpty adj with
    | none => rw [h1] at h; exact absurd h (by simp)
    | some o1 =>
      obtain ⟨l1, v1, a1⟩ := o1
      rw [h1] at h
      dsimp only at h
      cases h2 : forestFold step rest p a1 with
      | none => rw [h2] at h; exact absurd h (by simp)
      | some o2 =>
        obtain ⟨l2, v2, a2⟩ := o2
        rw [h2] at h
        simp at h
        have hs1 : adjSim cat a1 adj0 :=
          adjSim_trans (adjSim_symm (hsim c p rest.isEmpty adj _ h1)) hadj
        have e1 := hcnt c (List.mem_cons_self c rest) p rest.isEmpty adj _ hadj h1
        have e2 := ih (fun c2 hc2 => hcnt c2 (List.mem_cons_of_mem c hc2))
          p a1 _ hs1 h2
        cases h
        rw [List.map_cons, List.sum_cons]
        dsimp only
        rw [List.count_append]
        dsimp only at e1 e2
        omega

/-- Machine–specification correspondence: the number of occurrences of
`x` in the ghost visit sequence of a successful `print_tree` call equals
the `visitCount` of the starting adjacency. -/
theorem print_tree_count (cat : Catalog) (wei : Bool) (adj0 : Adj) (x : String) :
    ∀ (fuel : Nat) (u pre : String) (isLast : Bool) (adj : Adj) out,
      adjSim cat adj adj0 →
      print_tree cat wei fuel u pre isLast adj = some out →
      out.2.1.count x = visitCount adj0 fuel u x := by
  intro fuel
  induction fuel with
  | zero => intro u pre isLast adj out _ h; exact absurd h (by simp [print_tree_zero])
  | succ f ih =>
    intro u pre isLast adj out hadj h
    rw [print_tree_succ] at h
    cases hr : dictGet cat u with
    | none => rw [hr] at h; exact absurd h (by simp)
    | some r =>
      rw [hr] at h
      cases hf : forestFold (fun c p l ad => print_tree cat wei f c p l ad)
          (sortChildren cat (adjGet adj u)) (childIndent pre isLast)
          (adjSortAt cat adj u) with
      | none => rw [hf] at h; exact absurd h (by simp)
      | some o =>
        obtain ⟨ls, vs, adj2⟩ := o
        rw [hf] at h
        simp at h
        have hsorted : adjSim cat (adjSortAt cat adj u) adj0 :=
          adjSim_trans (adjSim_symm (adjSim_adjSortAt cat adj u)) hadj
        have hcnt := forestFold_count
          (fun c p l ad => print_tree cat wei f c p l ad)
          (fun c p l a o2 ho2 => print_tree_sim cat wei f c p l a o2 ho2)
          (sortChildren cat (adjGet adj u))
          (fun c _ p l a o2 ha2 ho2 => ih c p l a o2 ha2 ho2)
          (childIndent pre isLast) (adjSortAt cat adj u) _ hsorted hf
        have hperm : List.Perm (sortChildren cat (adjGet adj u)) (adjGet adj0 u) :=
          (sortChildren_perm cat (adjGet adj u)).trans (adjSim_perm hadj u)
        have hsum : ((sortChildren cat (adjGet adj u)).map
            (fun c => visitCount adj0 f c x)).sum =
            ((adjGet adj0 u).map (fun c => visitCount adj0 f c x)).sum :=
          (hperm.map (fun c => visitCount adj0 f c x)).sum_eq
        cases h
        rw [visitCount_succ]
        dsimp only
        rw [List.count_cons]
        dsimp only at hcnt
        rw [hcnt, hsum]
        by_cases hux : u = x
        · subst hux
          simp
          omega
        · have hxu : ¬ (u == x) = true := by simpa using hux
          simp [hux, hxu]

/-- Parent-shift: when `x` occurs exactly once in the child lists of
the key set — under `p` — every visit of `x` below `q` matches a visit
of `p` below `q`, except that `q = x` contributes its own visit. -/
theorem visitCount_shift {adj : Adj} {keys : List String} {rank : String → Nat}
    (hclosed : ∀ q ∈ keys, ∀ c ∈ adjGet adj q, c ∈ keys)
    (hrank : ∀ q ∈ keys, ∀ c ∈ adjGet adj q, rank c < rank q)
    {x p : String}
    (hocc : ∀ q ∈ keys, (adjGet adj q).count x = if q = p then 1 else 0) :
    ∀ (fuel : Nat) (q : String), q ∈ keys → rank q < fuel →
      visitCount adj fuel q x =
        visitCount adj fuel q p + (if q = x then 1 else 0) := by
  intro fuel
  induction fuel with
  | zero => intro q _ hlt; exact absurd hlt (Nat.not_lt_zero _)
  | succ f ih =>
    intro q hq hlt
    rw [visitCount_succ, visitCount_succ]
    have hchild : ∀ c ∈ adjGet adj q, visitCount adj f c x =
        visitCount adj f c p + (if c = x then 1 else 0) := by
      intro c hc
      have := hrank q hq c hc
      exact ih c (hclosed q hq c hc) (by omega)
    have hmap : (adjGet adj q).map (fun c => visitCount adj f c x) =
        (adjGet adj q).map (fun c => visitCount adj f c p +
          (if c = x then 1 else 0)) :=
      map_eq_of_mem hchild
    rw [hmap, sum_map_add_distrib, sum_map_count, hocc q hq]
    omega

/-- When `x` never occurs in the child lists of the key set, the only
visit it can receive below `q` is `q` itself. -/
theorem visitCount_absent {adj : Adj} {keys : List String} {rank : String → Nat}
    (hclosed : ∀ q ∈ keys, ∀ c ∈ adjGet adj q, c ∈ keys)
    (hrank : ∀ q ∈ keys, ∀ c ∈ adjGet adj q, rank c < rank q)
    {x : String}
    (hocc : ∀ q ∈ keys, (adjGet adj q).count x = 0) :
    ∀ (fuel : Nat) (q : String), q ∈ keys → rank q < fuel →
      visitCount adj fuel q x = if q = x then 1 else 0 := by
  intro fuel
  induction fuel with
  | zero => intro q _ hlt; exact absurd hlt (Nat.not_lt_zero _)
  | succ f ih =>
    intro q hq hlt
    rw [visitCount_succ]
    have hchild : ∀ c ∈ adjGet adj q, visitCount adj f c x =
        if c = x then 1 else 0 := by
      intro c hc
      have := hrank q hq c hc
      exact ih c (hclosed q hq c hc) (by omega)
    rw [map_eq_of_mem hchild, sum_map_count, hocc q hq]
    omega

/-- Under the forest certificate every key is visited exactly once in
total across the traversal of the root list. -/
theorem total_visits_one {adj : Adj} {keys roots : List String}
    {rank : String → Nat} {B : Nat}
    (hclosed : ∀ q ∈ keys, ∀ c ∈ adjGet adj q, c ∈ keys)
    (hrank : ∀ q ∈ keys, ∀ c ∈ adjGet adj q, rank c < rank q)
    (hroots : ∀ r ∈ roots, r ∈ keys)
    (hbound : ∀ q ∈ keys, rank q < B)
    (hcert : ∀ x ∈ keys,
      (roots.count x = 1 ∧ ∀ q ∈ keys, (adjGet adj q).count x = 0) ∨
      (roots.count x = 0 ∧ ∃ p ∈ keys,
        ∀ q ∈ keys, (adjGet adj q).count x = if q = p then 1 else 0)) :
    ∀ x ∈ keys, (roots.map (fun r => visitCount adj B r x)).sum = 1 := by
  suffices H : ∀ n, ∀ x ∈ keys, B - rank x ≤ n →
      (roots.map (fun r => visitCount adj B r x)).sum = 1 by
    intro x hx
    exact H B x hx (by omega)
  intro n
  induction n with
  | zero =>
    intro x hx hle
    have := hbound x hx
    omega
  | succ n ih =>
    intro x hx hle
    rcases hcert x hx with ⟨hroot, hocc0⟩ | ⟨hroot0, p, hp, hocc⟩
    · have hmap : roots.map (fun r => visitCount adj B r x) =
          roots.map (fun r => if r = x then 1 else 0) :=
        map_eq_of_mem (fun r hr => visitCount_absent hclosed hrank hocc0 B r
          (hroots r hr) (hbound r (hroots r hr)))
      rw [hmap, sum_map_count, hroot]
    · have hxadj : x ∈ adjGet adj p := by
        have h1 := hocc p hp
        rw [if_pos rfl] at h1
        have : 0 < (adjGet adj p).count x := by omega
        exact List.count_pos_iff.mp this
      have hrx : rank x < rank p := hrank p hp x hxadj
      have hbp := hbound p hp
      have hmap : roots.map (fun r => visitCount adj B r x) =
          roots.map (fun r => visitCount adj B r p +
            (if r = x then 1 else 0)) :=
        map_eq_of_mem (fun r hr => visitCount_shift hclosed hrank hocc B r
          (hroots r hr) (hbound r (hroots r hr)))
      rw [hmap, sum_map_add_distrib, sum_map_count, hroot0,
        ih p hp (by omega)]

theorem reach_mem_keys {adj : Adj} {roots keys : List String}
    (hroots : ∀ r ∈ roots, r ∈ keys)
    (hclosed : ∀ q ∈ keys, ∀ c ∈ adjGet adj q, c ∈ keys) :
    ∀ u, Reach adj roots u → u ∈ keys := by
  intro u h
  induction h with
  | root h => exact hroots _ h
  | step _ hm ih => exact hclosed _ ih _ hm

/-- No key on a cycle yields a ranking decreasing along key edges. -/
theorem rank_exists_of_no_keys_cycle {adj : Adj} {keys : List String}
    (hclosed : ∀ q ∈ keys, ∀ c ∈ adjGet adj q, c ∈ keys)
    (hnc : ¬∃ u, u ∈ keys ∧ Steps adj u u) :
    ∃ (rank : String → Nat) (B : Nat),
      (∀ q ∈ keys, ∀ c ∈ adjGet adj q, rank c < rank q) ∧ ∀ q, rank q < B := by
  classical
  refine ⟨fun u => (keys.toFinset.filter (fun v => Steps adj u v)).card,
    keys.toFinset.card + 1, ?_, ?_⟩
  · intro q hq c hc
    apply Finset.card_lt_card
    rw [Finset.ssubset_iff_of_subset]
    · exact ⟨c, Finset.mem_filter.mpr
        ⟨List.mem_toFinset.mpr (hclosed q hq c hc), Steps.single hc⟩,
        fun hcf => hnc ⟨c, hclosed q hq c hc, (Finset.mem_filter.mp hcf).2⟩⟩
    · intro w hw
      rw [Finset.mem_filter] at hw ⊢
      exact ⟨hw.1, Steps.cons hc hw.2⟩
  · intro q
    exact Nat.lt_succ_of_le (Finset.card_filter_le keys.toFinset
      (fun v => Steps adj q v))

/-- A globally edge-decreasing ranking certificate in particular keeps
every key off every cycle (decidable certificate for the witness). -/
theorem no_keys_cycle_of_rank {adj : Adj} {keys : List String} {rank : String → Nat}
    (h : ∀ p ∈ adj, ∀ v ∈ p.2, rank v < rank p.1) :
    ¬∃ u, u ∈ keys ∧ Steps adj u u := by
  have hedge : ∀ u v : String, v ∈ adjGet adj u → rank v < rank u := by
    intro u v hv
    cases hg : dictGet adj u with
    | none => simp [adjGet, hg] at hv
    | some l =>
      have hv2 : v ∈ l := by simpa [adjGet, hg] using hv
      exact h (u, l) (dictGet_mem hg) v hv2
  have hsteps : ∀ u v : String, Steps adj u v → rank v < rank u := by
    intro u v hs
    induction hs with
    | single h1 => exact hedge _ _ h1
    | cons h1 _ ih => exact lt_trans ih (hedge _ _ h1)
  rintro ⟨u, _, hc⟩
  exact lt_irrefl _ (hsteps u u hc)

/-- Abstract form of the exactly-once property: under the forest
certificate on the key set of the catalog, some budget renders
successfully and the visit sequence mentions every key exactly once. -/
theorem render_each_once {cat : Catalog} {wei : Bool} {adj : Adj}
    {roots keys : List String}
    (hkeys : keys = dictKeys cat)
    (hroots : ∀ r ∈ roots, r ∈ keys)
    (hclosed : ∀ q ∈ keys, ∀ c ∈ adjGet adj q, c ∈ keys)
    (hnc : ¬∃ u, u ∈ keys ∧ Steps adj u u)
    (hcert : ∀ x ∈ keys,
      (roots.count x = 1 ∧ ∀ q ∈ keys, (adjGet adj q).count x = 0) ∨
      (roots.count x = 0 ∧ ∃ p ∈ keys,
        ∀ q ∈ keys, (adjGet adj q).count x = if q = p then 1 else 0)) :
    ∃ fuel out, render cat wei fuel roots adj = some out ∧
      ∀ x ∈ keys, out.2.1.count x = 1 := by
  obtain ⟨rank, B, hdec, hbound⟩ := rank_exists_of_no_keys_cycle hclosed hnc
  have hreach : ∀ u, Reach adj roots u → u ∈ keys :=
    reach_mem_keys hroots hclosed
  have hmem : ∀ u, Reach adj roots u → (dictGet cat u).isSome = true := by
    intro u hu
    exact (mem_dictKeys_iff cat u).mp (hkeys ▸ hreach u hu)
  have hdecR : ∀ u, Reach adj roots u → ∀ v ∈ adjGet adj u, rank v < rank u :=
    fun u hu v hv => hdec u (hreach u hu) v hv
  obtain ⟨out, hout⟩ := forestFold_total
    (fun c p l ad => print_tree cat wei B c p l ad)
    (fun c p l a o ho => print_tree_sim cat wei B c p l a o ho)
    roots
    (fun c hc p l ad had => print_tree_total cat wei adj roots rank hmem hdecR
      B c p l ad (Reach.root hc) (hbound c) had)
    "" adj (adjSim_refl cat adj)
  refine ⟨B, out, hout, ?_⟩
  intro x hx
  have hcnt := forestFold_count
    (fun c p l ad => print_tree cat wei B c p l ad)
    (fun c p l a o ho => print_tree_sim cat wei B c p l a o ho)
    roots
    (fun c _ p l a o ha ho => print_tree_count cat wei adj x B c p l a o ha ho)
    "" adj out (adjSim_refl cat adj) hout
  rw [hcnt]
  exact total_visits_one hclosed hdec hroots (fun q _ => hbound q) hcert x hx

/-! ### C1: occurrence counts of the pipeline adjacency -/

theorem adjGet_owners_fold (c : String) :
    ∀ (os : List OwnerRef) (ad : Adj) (q x : String),
      (adjGet (os.foldl (fun a2 o => dictAppend a2 o.uid c) ad) q).count x =
        (adjGet ad q).count x +
          (if c = x then os.countP (fun o => o.uid = q) else 0) := by
  intro os
  induction os with
  | nil =>
    intro ad q x
    simp [List.countP_nil]
  | cons o os ih =>
    intro ad q x
    rw [List.foldl_cons, ih, List.countP_cons, adjGet_dictAppend_adj]
    by_cases houq : o.uid = q
    · subst houq
      rw [if_pos rfl, List.count_append]
      by_cases hcx : c = x
      · subst hcx
        simp
        omega
      · have hne : ¬ (c == x) = true := by simpa using hcx
        simp [hcx, hne, List.count_cons, List.count_nil]
    · rw [if_neg houq]
      simp [houq]

theorem count_adjGet_o2c_aux :
    ∀ (l : List (String × Resource)) (ad : Adj) (q x : String),
      (adjGet (l.foldl (fun adj p =>
          p.2.owners.foldl (fun a2 o => dictAppend a2 o.uid p.1) adj) ad) q).count x =
        (adjGet ad q).count x +
          ((l.filter (fun p => p.1 = x)).map
            (fun p => p.2.owners.countP (fun o => o.uid = q))).sum := by
  intro l
  induction l with
  | nil => intro ad q x; simp
  | cons p l ih =>
    intro ad q x
    rw [List.foldl_cons, ih, adjGet_owners_fold p.1 p.2.owners ad q x,
      List.filter_cons]
    by_cases hpx : p.1 = x
    · rw [if_pos (decide_eq_true hpx), List.map_cons, List.sum_cons, if_pos hpx]
      omega
    · rw [if_neg (fun hd => hpx (of_decide_eq_true hd)), if_neg hpx]
      omega

/-- The number of occurrences of `x` in the child list of `q` built by
`owner_to_children` is the number of owner references of the resource
stored at `x` that target `q`. -/
theorem count_adjGet_o2c (cat : Catalog) (q x : String) :
    (adjGet (owner_to_children cat) q).count x = ownerEdges cat x q := by
  unfold owner_to_children ownerEdges
  rw [count_adjGet_o2c_aux]
  simp [adjGet, dictGet]

theorem filter_key_of_nodup {cat : Catalog} (hn : (dictKeys cat).Nodup)
    {x : String} {r : Resource} (h : dictGet cat x = some r) :
    cat.filter (fun p => p.1 = x) = [(x, r)] := by
  induction cat with
  | nil => simp [dictGet] at h
  | cons p rest ih =>
    obtain ⟨k0, v0⟩ := p
    rw [dictKeys_cons, List.nodup_cons] at hn
    rw [dictGet] at h
    rw [List.filter_cons]
    by_cases hk : k0 = x
    · rw [if_pos hk] at h
      injection h with h2
      subst h2
      subst hk
      rw [if_pos (by simp)]
      have hrest : rest.filter (fun p => p.1 = k0) = [] := by
        rw [List.filter_eq_nil_iff]
        intro p2 hp2 hp2x
        have hm : p2.1 ∈ dictKeys rest := List.mem_map_of_mem Prod.fst hp2
        rw [of_decide_eq_true hp2x] at hm
        exact hn.1 hm
      rw [hrest]
    · rw [if_neg hk] at h
      rw [if_neg (by simpa using hk)]
      exact ih hn.2 h

theorem ownerEdges_some {cat : Catalog} (hn : (dictKeys cat).Nodup) {x : String}
    {r : Resource} (h : dictGet cat x = some r) (q : String) :
    ownerEdges cat x q = r.owners.countP (fun o => o.uid = q) := by
  unfold ownerEdges
  rw [filter_key_of_nodup hn h]
  simp

theorem ownerEdges_none {cat : Catalog} {x : String}
    (h : dictGet cat x = none) (q : String) : ownerEdges cat x q = 0 := by
  unfold ownerEdges
  have hf : cat.filter (fun p => p.1 = x) = [] := by
    rw [List.filter_eq_nil_iff]
    intro p hp hpx
    have hm : p.1 ∈ dictKeys cat := List.mem_map_of_mem Prod.fst hp
    rw [of_decide_eq_true hpx] at hm
    exact absurd hm ((dictGet_eq_none_iff cat x).mp h)
  rw [hf]
  rfl

theorem mem_adjGet_o2c {cat : Catalog} {q c : String}
    (h : c ∈ adjGet (owner_to_children cat) q) : c ∈ dictKeys cat := by
  by_contra hnc
  have hget : dictGet cat c = none := (dictGet_eq_none_iff cat c).mpr hnc
  have h0 : (adjGet (owner_to_children cat) q).count c = 0 := by
    rw [count_adjGet_o2c, ownerEdges_none hget]
  have hpos := List.count_pos_iff.mpr h
  omega

theorem top_level_subset_keys {cat : Catalog} {u : String}
    (h : u ∈ top_level cat) : u ∈ dictKeys cat := by
  unfold top_level at h
  obtain ⟨p, hp, he⟩ := List.mem_map.mp h
  exact he ▸ List.mem_map_of_mem Prod.fst (List.mem_of_mem_filter hp)

theorem top_level_nodup {cat : Catalog} (hn : (dictKeys cat).Nodup) :
    (top_level cat).Nodup := by
  unfold top_level
  exact List.Nodup.sublist
    ((List.filter_sublist cat).map Prod.fst) hn

/-- With unique catalog keys, each group of `kind_groups` lists a uid
at most once: once if it is top-level and passes the group test. -/
theorem count_group {se : Bool} {cat : Catalog} (hn : (dictKeys cat).Nodup)
    {k : String} {l : List String}
    (hl : dictGet (kind_groups se cat) k = some l) (x : String) :
    l.count x =
      if x ∈ top_level cat ∧ groupTest se cat k x = true then 1 else 0 := by
  have hleq : l = (top_level cat).filter (groupTest se cat k) := by
    have := kind_groups_getD se cat k
    rw [hl] at this
    exact this
  rw [hleq]
  have hnd : ((top_level cat).filter (groupTest se cat k)).Nodup :=
    (top_level_nodup hn).filter _
  rw [count_eq_ite_of_nodup hnd]
  by_cases hm : x ∈ top_level cat ∧ groupTest se cat k x = true
  · rw [if_pos (List.mem_filter.mpr ⟨hm.1, hm.2⟩), if_pos hm]
  · rw [if_neg (fun hmf => hm ⟨List.mem_of_mem_filter hmf,
      List.of_mem_filter hmf⟩), if_neg hm]

/-! ### C1: synthesis decomposition helpers -/

theorem kind_groups_pseudo_nodup {se : Bool} {cat : Catalog}
    (hinj : ∀ k1 ∈ dictKeys (kind_groups se cat),
      ∀ k2 ∈ dictKeys (kind_groups se cat),
      pseudoUidOf k1 = pseudoUidOf k2 → k1 = k2) :
    ((kind_groups se cat).map (fun g => pseudoUidOf g.1)).Nodup := by
  have hknd := kind_groups_keys_nodup se cat
  have he : (kind_groups se cat).map (fun g => pseudoUidOf g.1) =
      (dictKeys (kind_groups se cat)).map pseudoUidOf := by
    simp [dictKeys, List.map_map]
  rw [he]
  exact hknd.map_on (fun x hx y hy hxy => hinj x hx y hy hxy)

theorem synthesize_cat_append (a : Args) (cat : Catalog) (adj : Adj)
    (hfreshCat : ∀ k ∈ dictKeys (kind_groups a.showEvents cat),
      pseudoUidOf k ∉ dictKeys cat)
    (hmapnd : ((kind_groups a.showEvents cat).map
      (fun g => pseudoUidOf g.1)).Nodup) :
    (synthesize a cat adj).cat = cat ++ (kind_groups a.showEvents cat).map
      (fun g => (pseudoUidOf g.1, pseudoRes a g.1)) := by
  have hsk : ∀ g ∈ kind_groups a.showEvents cat,
      ¬ (g.1 = "Event" ∧ ¬ a.showEvents) :=
    fun g hg => kind_groups_no_skipped_event a.showEvents cat g.1
      (List.mem_map_of_mem Prod.fst hg)
  unfold synthesize
  rw [synthesize_components a _ _ hsk]
  exact foldl_dictSet_fresh (fun g : String × List String => pseudoUidOf g.1)
    (fun g => pseudoRes a g.1) (kind_groups a.showEvents cat) cat
    (fun g hg => hfreshCat g.1 (List.mem_map_of_mem Prod.fst hg)) hmapnd

theorem synthesize_adj_foldl (a : Args) (cat : Catalog) (adj : Adj) :
    (synthesize a cat adj).adj = (kind_groups a.showEvents cat).foldl (fun ad g =>
      g.2.foldl (fun ad2 c => dictAppend ad2 (pseudoUidOf g.1) c) ad) adj := by
  have hsk : ∀ g ∈ kind_groups a.showEvents cat,
      ¬ (g.1 = "Event" ∧ ¬ a.showEvents) :=
    fun g hg => kind_groups_no_skipped_event a.showEvents cat g.1
      (List.mem_map_of_mem Prod.fst hg)
  unfold synthesize
  rw [synthesize_components a _ _ hsk]

theorem synthesize_pseudo_snd (a : Args) (cat : Catalog) (adj : Adj) :
    (synthesize a cat adj).pseudo_nodes.map Prod.snd =
      (kind_groups a.showEvents cat).map (fun g => pseudoUidOf g.1) := by
  have hsk : ∀ g ∈ kind_groups a.showEvents cat,
      ¬ (g.1 = "Event" ∧ ¬ a.showEvents) :=
    fun g hg => kind_groups_no_skipped_event a.showEvents cat g.1
      (List.mem_map_of_mem Prod.fst hg)
  have hpn : (synthesize a cat adj).pseudo_nodes =
      (kind_groups a.showEvents cat).map (fun g => (g.1, pseudoUidOf g.1)) := by
    unfold synthesize
    rw [synthesize_components a _ _ hsk]
    have := foldl_dictSet_fresh (fun g : String × List String => g.1)
      (fun g => pseudoUidOf g.1) (kind_groups a.showEvents cat) []
      (by simp [dictKeys]) (kind_groups_keys_nodup a.showEvents cat)
    simpa using this
  rw [hpn, List.map_map]
  rfl

theorem synth_adjGet_real (a : Args) (cat : Catalog) (adj : Adj) {q : String}
    (hq : ∀ k ∈ dictKeys (kind_groups a.showEvents cat), pseudoUidOf k ≠ q) :
    adjGet (synthesize a cat adj).adj q = adjGet adj q := by
  rw [synthesize_adj_foldl]
  exact synth_adj_other_key _ _ _ (fun g hg =>
    hq g.1 (List.mem_map_of_mem Prod.fst hg))

theorem synth_adjGet_pseudo (a : Args) (cat : Catalog) (adj : Adj) {k : String}
    {l : List String}
    (hmapnd : ((kind_groups a.showEvents cat).map
      (fun g => pseudoUidOf g.1)).Nodup)
    (hl : dictGet (kind_groups a.showEvents cat) k = some l) :
    adjGet (synthesize a cat adj).adj (pseudoUidOf k) =
      adjGet adj (pseudoUidOf k) ++ l := by
  rw [synthesize_adj_foldl]
  exact synth_adj_pseudo_key _ _ (k, l) (dictGet_eq_some_mem hl) hmapnd

/-- The forest certificate of the synthesized graph: with at most one
owner reference per resource and fresh, injective synthetic identities,
the sorted synthetic uids are catalog keys; child lists stay inside the
catalog keys; and every key occurs exactly once — either once as a
top-level synthetic root and never as a child, or never as a root and
exactly once in the child list of a unique parent. -/
theorem synthesis_cert (a : Args) (cat : Catalog) (adj : Adj)
    (hn : (dictKeys cat).Nodup)
    (hev : ∀ u r, dictGet cat u = some r → r.kind = "Event" → a.showEvents = true)
    (hadjc : ∀ q x, (adjGet adj q).count x = ownerEdges cat x q)
    (hclosedadj : ∀ q c, c ∈ adjGet adj q → c ∈ dictKeys cat)
    (hfreshCat : ∀ k ∈ dictKeys (kind_groups a.showEvents cat),
      pseudoUidOf k ∉ dictKeys cat)
    (hfreshAdj : ∀ k ∈ dictKeys (kind_groups a.showEvents cat),
      adjGet adj (pseudoUidOf k) = [])
    (hinj : ∀ k1 ∈ dictKeys (kind_groups a.showEvents cat),
      ∀ k2 ∈ dictKeys (kind_groups a.showEvents cat),
      pseudoUidOf k1 = pseudoUidOf k2 → k1 = k2)
    (h1 : ∀ p ∈ cat, p.2.owners.length ≤ 1) :
    (∀ r ∈ List.insertionSort (uidLE (synthesize a cat adj).cat)
        ((synthesize a cat adj).pseudo_nodes.map Prod.snd),
      r ∈ dictKeys (synthesize a cat adj).cat) ∧
    (∀ q ∈ dictKeys (synthesize a cat adj).cat,
      ∀ c ∈ adjGet (synthesize a cat adj).adj q,
        c ∈ dictKeys (synthesize a cat adj).cat) ∧
    (∀ x ∈ dictKeys (synthesize a cat adj).cat,
      ((List.insertionSort (uidLE (synthesize a cat adj).cat)
          ((synthesize a cat adj).pseudo_nodes.map Prod.snd)).count x = 1 ∧
        ∀ q ∈ dictKeys (synthesize a cat adj).cat,
          (adjGet (synthesize a cat adj).adj q).count x = 0) ∨
      ((List.insertionSort (uidLE (synthesize a cat adj).cat)
          ((synthesize a cat adj).pseudo_nodes.map Prod.snd)).count x = 0 ∧
        ∃ p2 ∈ dictKeys (synthesize a cat adj).cat,
          ∀ q ∈ dictKeys (synthesize a cat adj).cat,
            (adjGet (synthesize a cat adj).adj q).count x =
              if q = p2 then 1 else 0)) := by
  have hmapnd := kind_groups_pseudo_nodup hinj
  have hkeq : dictKeys (synthesize a cat adj).cat =
      dictKeys cat ++ (kind_groups a.showEvents cat).map
        (fun g => pseudoUidOf g.1) := by
    rw [synthesize_cat_append a cat adj hfreshCat hmapnd]
    unfold dictKeys
    rw [List.map_append, List.map_map]
    rfl
  have hsnd := synthesize_pseudo_snd a cat adj
  have hpermroots : List.Perm
      (List.insertionSort (uidLE (synthesize a cat adj).cat)
        ((synthesize a cat adj).pseudo_nodes.map Prod.snd))
      ((kind_groups a.showEvents cat).map (fun g => pseudoUidOf g.1)) := by
    have hp1 := List.perm_insertionSort (uidLE (synthesize a cat adj).cat)
      ((synthesize a cat adj).pseudo_nodes.map Prod.snd)
    exact hp1.trans (by rw [hsnd])
  have hrootcount : ∀ x,
      (List.insertionSort (uidLE (synthesize a cat adj).cat)
        ((synthesize a cat adj).pseudo_nodes.map Prod.snd)).count x =
      ((kind_groups a.showEvents cat).map (fun g => pseudoUidOf g.1)).count x :=
    fun x => hpermroots.count_eq x
  have hsplit : ∀ q ∈ dictKeys (synthesize a cat adj).cat,
      q ∈ dictKeys cat ∨
        ∃ k ∈ dictKeys (kind_groups a.showEvents cat), q = pseudoUidOf k := by
    intro q hq
    rw [hkeq] at hq
    rcases List.mem_append.mp hq with h | h
    · exact Or.inl h
    · obtain ⟨g, hg, he⟩ := List.mem_map.mp h
      exact Or.inr ⟨g.1, List.mem_map_of_mem Prod.fst hg, he.symm⟩
  have hreadreal : ∀ q ∈ dictKeys cat,
      adjGet (synthesize a cat adj).adj q = adjGet adj q := by
    intro q hq
    exact synth_adjGet_real a cat adj (fun k hk he => hfreshCat k hk (he ▸ hq))
  have hreadpseudo : ∀ k ∈ dictKeys (kind_groups a.showEvents cat),
      ∃ l, dictGet (kind_groups a.showEvents cat) k = some l ∧
        adjGet (synthesize a cat adj).adj (pseudoUidOf k) = l := by
    intro k hk
    obtain ⟨l, hl⟩ := Option.isSome_iff_exists.mp ((mem_dictKeys_iff _ _).mp hk)
    refine ⟨l, hl, ?_⟩
    rw [synth_adjGet_pseudo a cat adj hmapnd hl, hfreshAdj k hk]
    simp
  refine ⟨?_, ?_, ?_⟩
  · intro r hr
    have hmem := hpermroots.mem_iff.mp hr
    rw [hkeq]
    exact List.mem_append_right _ hmem
  · intro q hq c hc
    rcases hsplit q hq with hreal | ⟨k, hk, rfl⟩
    · rw [hreadreal q hreal] at hc
      rw [hkeq]
      exact List.mem_append_left _ (hclosedadj q c hc)
    · obtain ⟨l, hl, hread⟩ := hreadpseudo k hk
      rw [hread] at hc
      have hlf : l = (top_level cat).filter (groupTest a.showEvents cat k) := by
        have := kind_groups_getD a.showEvents cat k
        rw [hl] at this
        exact this
      rw [hlf] at hc
      rw [hkeq]
      exact List.mem_append_left _
        (top_level_subset_keys (List.mem_of_mem_filter hc))
  · intro x hx
    rcases hsplit x hx with hxreal | ⟨k, hk, rfl⟩
    · -- a real catalog entry
      obtain ⟨r, hr⟩ := Option.isSome_iff_exists.mp ((mem_dictKeys_iff _ _).mp hxreal)
      have hxnoroot : (List.insertionSort (uidLE (synthesize a cat adj).cat)
          ((synthesize a cat adj).pseudo_nodes.map Prod.snd)).count x = 0 := by
        rw [hrootcount, List.count_eq_zero]
        intro hmem
        obtain ⟨g, hg, he⟩ := List.mem_map.mp hmem
        exact hfreshCat g.1 (List.mem_map_of_mem Prod.fst hg) (he ▸ hxreal)
      by_cases htop : isTopLevelRes cat r = true
      · -- top-level: unique parent is the kind's synthetic node
        have hkind : r.kind ∈ dictKeys (kind_groups a.showEvents cat) := by
          rw [mem_kind_groups_keys]
          exact ⟨x, (mem_top_level_iff hn x).mpr ⟨r, hr, htop⟩,
            (groupTest_iff_of_event_policy hev x r.kind).mpr ⟨r, hr, rfl⟩⟩
        have hownersq : ∀ q ∈ dictKeys cat,
            r.owners.countP (fun o => o.uid = q) = 0 := by
          intro q hq
          rw [List.countP_eq_zero]
          intro o ho hoq
          have heq : o.uid = q := of_decide_eq_true hoq
          have hlen := h1 (x, r) (dictGet_eq_some_mem hr)
          cases hos : r.owners with
          | nil => rw [hos] at ho; simp at ho
          | cons o0 t =>
            have ht : t = [] := by
              rw [hos, List.length_cons] at hlen
              exact List.length_eq_zero.mp (by omega)
            subst ht
            rw [hos] at ho
            have ho0 : o = o0 := by simpa using ho
            subst ho0
            have habs : dictGet cat o.uid = none := by
              unfold isTopLevelRes at htop
              rw [hos] at htop
              simp at htop
              exact Option.isNone_iff_eq_none.mp (by simp [htop])
            rw [heq] at habs
            have := (mem_dictKeys_iff cat q).mp hq
            rw [habs] at this
            simp at this
        right
        refine ⟨hxnoroot, pseudoUidOf r.kind, ?_, ?_⟩
        · rw [hkeq]
          refine List.mem_append_right _ ?_
          obtain ⟨g, hg, he⟩ := List.mem_map.mp hkind
          exact List.mem_map.mpr ⟨g, hg, by rw [he]⟩
        · intro q hq
          rcases hsplit q hq with hqreal | ⟨k', hk', rfl⟩
          · rw [hreadreal q hqreal, hadjc q x, ownerEdges_some hn hr,
              hownersq q hqreal,
              if_neg (fun he => hfreshCat r.kind hkind
                (by rw [← he]; exact hqreal))]
          · obtain ⟨l, hl, hread⟩ := hreadpseudo k' hk'
            rw [hread, count_group hn hl x]
            have hxtop : x ∈ top_level cat :=
              (mem_top_level_iff hn x).mpr ⟨r, hr, htop⟩
            have hgt : groupTest a.showEvents cat k' x = true ↔ r.kind = k' := by
              rw [groupTest_iff_of_event_policy hev]
              constructor
              · rintro ⟨r', hr', hkq⟩
                rw [hr] at hr'
                injection hr' with he
                subst he
                exact hkq
              · intro hkk
                exact ⟨r, hr, hkk⟩
            by_cases hkk : r.kind = k'
            · rw [if_pos ⟨hxtop, hgt.mpr hkk⟩, if_pos (by rw [hkk])]
            · rw [if_neg (fun hc => hkk (hgt.mp hc.2)),
                if_neg (fun he => hkk (hinj k' hk' r.kind hkind he).symm)]
      · -- non-top-level: unique parent is the sole, present owner
        have hlen := h1 (x, r) (dictGet_eq_some_mem hr)
        have hxntop : x ∉ top_level cat := by
          intro hc
          obtain ⟨r', hr', htl⟩ := (mem_top_level_iff hn x).mp hc
          rw [hr] at hr'
          injection hr' with he
          subst he
          exact htop htl
        rcases hos : r.owners with _ | ⟨o, t⟩
        · exfalso
          apply htop
          unfold isTopLevelRes
          rw [hos]
          simp
        · have ht : t = [] := by
            rw [hos, List.length_cons] at hlen
            exact List.length_eq_zero.mp (by omega)
          subst ht
          have hpres : ∃ r2, dictGet cat o.uid = some r2 := by
            cases hg : dictGet cat o.uid with
            | none =>
              exfalso
              apply htop
              unfold isTopLevelRes
              rw [hos]
              simp [hg]
            | some r2 => exact ⟨r2, rfl⟩
          obtain ⟨r2, hg2⟩ := hpres
          have hpuid : o.uid ∈ dictKeys cat :=
            (mem_dictKeys_iff _ _).mpr (by simp [hg2])
          right
          refine ⟨hxnoroot, o.uid, by rw [hkeq]; exact List.mem_append_left _ hpuid,
            ?_⟩
          intro q hq
          rcases hsplit q hq with hqreal | ⟨k', hk', rfl⟩
          · rw [hreadreal q hqreal, hadjc q x, ownerEdges_some hn hr, hos,
              List.countP_cons, List.countP_nil]
            by_cases he : o.uid = q
            · subst he
              simp
            · have h2 : ¬ q = o.uid := fun h3 => he h3.symm
              simp [he, h2]
          · obtain ⟨l, hl, hread⟩ := hreadpseudo k' hk'
            rw [hread, count_group hn hl x,
              if_neg (fun hc => hxntop hc.1),
              if_neg (fun he => hfreshCat k' hk' (by rw [he]; exact hpuid))]
    · -- a synthetic group node
      left
      constructor
      · rw [hrootcount, count_eq_ite_of_nodup hmapnd]
        rw [if_pos ?hmem]
        case hmem =>
          obtain ⟨g, hg, he⟩ := List.mem_map.mp hk
          exact List.mem_map.mpr ⟨g, hg, by rw [he]⟩
      · intro q hq
        rcases hsplit q hq with hqreal | ⟨k', hk', rfl⟩
        · rw [hreadreal q hqreal, hadjc q _,
            ownerEdges_none ((dictGet_eq_none_iff _ _).mpr (hfreshCat k hk))]
        · obtain ⟨l, hl, hread⟩ := hreadpseudo k' hk'
          rw [hread, count_group hn hl _,
            if_neg (fun hc => hfreshCat k hk (top_level_subset_keys hc.1))]

/-- C1 counterexample: in an acyclic catalog where `u3` carries two
owner references, both resolving to present resources, the rendering
loop prints `u3` twice — once below each owner — so a resource with
multiple owner references does not appear exactly once. -/
theorem c1_counterexample :
    "u3" ∈ dictKeys (pipeline argsA itemsTwoOwners).1.cat ∧
      Option.map (fun out => out.2.1.count "u3")
        (render (pipeline argsA itemsTwoOwners).1.cat argsA.withEventInfo 4
          (pipeline argsA itemsTwoOwners).2
          (pipeline argsA itemsTwoOwners).1.adj) = some 2 := by
  constructor
  · decide
  · decide

/-- C1 amended: when every resource carries at most one owner
reference (and, as the script presumes, the synthetic identities are
fresh and injective and no catalog entry lies on an adjacency cycle),
some recursion budget renders the pipeline successfully and the ghost
visit sequence mentions every entry of the synthesized node table —
every catalog resource and every synthetic group node — exactly once:
nothing is omitted and nothing is printed twice. -/
theorem c1_amended_each_resource_rendered_once (a : Args) (items : List RawItem)
    (hfreshCat : ∀ k ∈ dictKeys (kind_groups a.showEvents (buildCatalog a items)),
      pseudoUidOf k ∉ dictKeys (buildCatalog a items))
    (hfreshAdj : ∀ k ∈ dictKeys (kind_groups a.showEvents (buildCatalog a items)),
      adjGet (owner_to_children (buildCatalog a items)) (pseudoUidOf k) = [])
    (hinj : ∀ k1 ∈ dictKeys (kind_groups a.showEvents (buildCatalog a items)),
      ∀ k2 ∈ dictKeys (kind_groups a.showEvents (buildCatalog a items)),
      pseudoUidOf k1 = pseudoUidOf k2 → k1 = k2)
    (h1 : ∀ p ∈ buildCatalog a items, p.2.owners.length ≤ 1)
    (hnc : ¬∃ u, u ∈ dictKeys (pipeline a items).1.cat ∧
      Steps (pipeline a items).1.adj u u) :
    ∃ fuel out, render (pipeline a items).1.cat a.withEventInfo fuel
        (pipeline a items).2 (pipeline a items).1.adj = some out ∧
      ∀ x ∈ dictKeys (pipeline a items).1.cat, out.2.1.count x = 1 := by
  obtain ⟨hroots, hclosed, hcert⟩ := synthesis_cert a (buildCatalog a items)
    (owner_to_children (buildCatalog a items))
    (buildCatalog_nodup a items)
    (fun u r h hk => buildCatalog_event_showEvents h hk)
    (fun q x => count_adjGet_o2c (buildCatalog a items) q x)
    (fun q c hc => mem_adjGet_o2c hc)
    hfreshCat hfreshAdj hinj h1
  exact render_each_once rfl hroots hclosed hnc hcert

/-- C1 amended witness: on the specification's scenario catalog (all
single-owner), the amended theorem yields a budget at which every node
of the synthesized table is visited exactly once. -/
theorem c1_amended_witness :
    ∃ fuel out, render (pipeline argsA itemsScenario).1.cat argsA.withEventInfo
        fuel (pipeline argsA itemsScenario).2
        (pipeline argsA itemsScenario).1.adj = some out ∧
      ∀ x ∈ dictKeys (pipeline argsA itemsScenario).1.cat,
        out.2.1.count x = 1 :=
  c1_amended_each_resource_rendered_once argsA itemsScenario
    (by decide) (by decide) (by decide) (by decide)
    (@no_keys_cycle_of_rank (pipeline argsA itemsScenario).1.adj
      (dictKeys (pipeline argsA itemsScenario).1.cat)
      (fun u => if u = "2" ∨ u = "3" then 0 else if u = "1" then 1 else 2)
      (by decide))

/-! ### C10: fingerprint extraction sees the synthetic nodes -/

theorem mem_dictSet_cases {α : Type} {d : Dict α} {k : String} {v : α}
    {p : String × α} (h : p ∈ dictSet d k v) : p ∈ d ∨ p = (k, v) := by
  induction d with
  | nil =>
    simp [dictSet] at h
    exact Or.inr h
  | cons q rest ih =>
    obtain ⟨k0, v0⟩ := q
    rw [dictSet] at h
    by_cases he : k0 = k
    · rw [if_pos he] at h
      rcases List.mem_cons.mp h with rfl | hm
      · exact Or.inr rfl
      · exact Or.inl (List.mem_cons_of_mem _ hm)
    · rw [if_neg he] at h
      rcases List.mem_cons.mp h with rfl | hm
      · exact Or.inl (List.mem_cons_self _ _)
      · rcases ih hm with h1 | h2
        · exact Or.inl (List.mem_cons_of_mem _ h1)
        · exact Or.inr h2

theorem mem_synthStep_cat {a : Args} {st : SynthState} {g : String × List String}
    {p : String × Resource} (h : p ∈ (synthStep a st g).cat) :
    p ∈ st.cat ∨ ∃ k, p = (pseudoUidOf k, pseudoRes a k) := by
  unfold synthStep at h
  by_cases hsk : g.1 = "Event" ∧ ¬ a.showEvents
  · rw [if_pos hsk] at h
    exact Or.inl h
  · rw [if_neg hsk] at h
    dsimp only at h
    rcases mem_dictSet_cases h with h1 | h2
    · exact Or.inl h1
    · exact Or.inr ⟨g.1, h2⟩

theorem mem_synthesize_cat {a : Args} {cat : Catalog} {adj : Adj}
    {p : String × Resource} (h : p ∈ (synthesize a cat adj).cat) :
    p ∈ cat ∨ ∃ k, p = (pseudoUidOf k, pseudoRes a k) := by
  unfold synthesize at h
  suffices H : ∀ (gs : List (String × List String)) (st0 : SynthState),
      p ∈ (gs.foldl (synthStep a) st0).cat →
      p ∈ st0.cat ∨ ∃ k, p = (pseudoUidOf k, pseudoRes a k) by
    exact H _ ⟨[], cat, adj⟩ h
  intro gs
  induction gs with
  | nil => intro st0 h0; exact Or.inl h0
  | cons g rest ih =>
    intro st0 h0
    rw [List.foldl_cons] at h0
    rcases ih _ h0 with h1 | h2
    · exact mem_synthStep_cat h1
    · exact Or.inr h2

/-- Every entry of the synthesized node table carries the run
namespace: line 136 stamps it on fetched resources and line 185 on the
synthetic ones. -/
theorem pipeline_ns (a : Args) (items : List RawItem) :
    ∀ p ∈ (pipeline a items).1.cat, p.2.ns = a.ns := by
  intro p hp
  have hp2 : p ∈ (synthesize a (buildCatalog a items)
      (owner_to_children (buildCatalog a items))).cat := hp
  rcases mem_synthesize_cat hp2 with h1 | ⟨k, rfl⟩
  · have hnod := buildCatalog_nodup a items
    have hget := mem_dictGet_of_nodup hnod h1
    obtain ⟨it, _, _, hr, _⟩ := buildCatalog_values hget
    rw [hr]
    rfl
  · rfl

theorem string_append_right_empty (s : String) : s ++ "" = s := by
  obtain ⟨l⟩ := s
  show String.mk (l ++ []) = String.mk l
  rw [List.append_nil]

/-- C10 (implicit): `gather_fingerprint` iterates `uid_to_resource`
after the synthetic group nodes were inserted (line 183; the gather
call at line 369 follows synthesis), so each synthetic node of a kind
group receives its own entry in the produced document, keyed by its
capitalized-plural display kind followed by a slash and the empty name
(`displayKind ++ "/"`), alongside the entries of the real resources;
and with a root-kind instance present, the first written artifact is
exactly that document. -/
theorem c10_fingerprint_covers_synthetic_nodes (a : Args)
    (items : List RawItem) (oracle : Oracle) (rootKind k : String)
    (hk : k ∈ dictKeys (kind_groups a.showEvents (buildCatalog a items)))
    (hfreshCat : ∀ k2 ∈ dictKeys (kind_groups a.showEvents (buildCatalog a items)),
      pseudoUidOf k2 ∉ dictKeys (buildCatalog a items))
    (hinj : ∀ k1 ∈ dictKeys (kind_groups a.showEvents (buildCatalog a items)),
      ∀ k2 ∈ dictKeys (kind_groups a.showEvents (buildCatalog a items)),
      pseudoUidOf k1 = pseudoUidOf k2 → k1 = k2)
    (hslash : ∀ p ∈ (pipeline a items).1.cat, ('/' : Char) ∉ p.2.kind.data) :
    ((pseudoUidOf k, pseudoRes a k) ∈ (pipeline a items).1.cat) ∧
      (pseudoRes a k).kind =
        pyCapitalize ((dictGet a.k2p k).getD (pyToLower k ++ "s")) ∧
      dictGet (firstDoc oracle (pipeline a items).1.cat)
          ((pseudoRes a k).kind ++ "/") =
        some (DocVal.summary
          (mkOut (firstDocState oracle (pipeline a items).1.cat)
            (oracle (pseudoRes a k).kind "" a.ns))) ∧
      (∀ u us, ((pipeline a items).1.cat.filter
          (fun p => p.2.kind = rootKind ∧ p.2.ns = a.ns)).map Prod.fst =
          u :: us →
        ∃ docs, gatherFingerprint rootKind oracle (pipeline a items).1.cat
            a.ns =
          ((((dictGet (pipeline a items).1.cat u).map Resource.name).getD "")
            ++ "-state.json", firstDoc oracle (pipeline a items).1.cat) ::
            docs) := by
  have hpc : (pipeline a items).1.cat = (synthesize a (buildCatalog a items)
      (owner_to_children (buildCatalog a items))).cat := rfl
  have hca := synthesize_cat_append a (buildCatalog a items)
    (owner_to_children (buildCatalog a items)) hfreshCat
    (kind_groups_pseudo_nodup hinj)
  have hmem : (pseudoUidOf k, pseudoRes a k) ∈ (pipeline a items).1.cat := by
    rw [hpc, hca]
    refine List.mem_append_right _ ?_
    obtain ⟨g, hg, he⟩ := List.mem_map.mp hk
    exact List.mem_map.mpr ⟨g, hg, by rw [he]⟩
  refine ⟨hmem, rfl, ?_, ?_⟩
  · have hentry := firstDoc_entry oracle (pipeline a items).1.cat a.ns
      (pipeline_ns a items) hslash (pseudoUidOf k, pseudoRes a k) hmem
    dsimp only at hentry
    have hkey : (pseudoRes a k).kind ++ "/" ++ (pseudoRes a k).name =
        (pseudoRes a k).kind ++ "/" :=
      string_append_right_empty _
    rw [hkey] at hentry
    exact hentry
  · intro u us hce
    exact gather_head rootKind oracle (pipeline a items).1.cat a.ns hce

/-- C10 witness: on the fingerprint fixture, the `Pod` group's
synthetic node sits in the synthesized table and the produced document
holds an entry under `"Pods/"`. -/
theorem c10_witness :
    ((pseudoUidOf "Pod", pseudoRes argsA "Pod") ∈
        (pipeline argsA itemsFp).1.cat) ∧
      dictGet (firstDoc oracleImg (pipeline argsA itemsFp).1.cat)
          ((pseudoRes argsA "Pod").kind ++ "/") =
        some (DocVal.summary
          (mkOut (firstDocState oracleImg (pipeline argsA itemsFp).1.cat)
            (oracleImg (pseudoRes argsA "Pod").kind "" argsA.ns))) :=
  (fun h => ⟨h.1, h.2.2.1⟩)
    (c10_fingerprint_covers_synthetic_nodes argsA itemsFp oracleImg
      "ClusterExtension" "Pod" (by decide) (by decide) (by decide) (by decide))

end OwnershipTree
